import Mathlib

/-!
Shallow embedding of the PSO core (backend/pso) and verification of its
specification claims.  Python floats are modelled as rationals extended with
the two infinities (`FVal`); numpy arrays of floats as `List ℚ`; fallible
Python code (TypeError / ValueError / IndexError / AttributeError) as
`Except Err`.  Random draws (`np.random.uniform`, `np.random.random`) are
modelled by an explicit stream of rationals threaded through the stages.
-/

deriving instance DecidableEq for Except

/- Core marks the rational operations irreducible (favouring their C
implementations); re-open them so that concrete runs of the embedded code
reduce inside `decide`/`rfl` proofs. -/
set_option allowUnsafeReducibility true
attribute [semireducible] Rat.add Rat.sub Rat.mul Rat.div Rat.inv Rat.neg

set_option maxRecDepth 8192

namespace PSO

/-- A Python float as it occurs in this code base: a finite rational or one of
the two IEEE infinities (`np.inf`, `-np.inf`).  No NaN arises in the embedded
code paths. -/
inductive FVal where
| ninf : FVal
| fin (q : ℚ) : FVal
| pinf : FVal
deriving DecidableEq, Repr

namespace FVal

/-- The float `<` comparison extended to the infinities. -/
def lt : FVal → FVal → Bool
| ninf, ninf => false
| ninf, _ => true
| fin _, ninf => false
| fin a, fin b => decide (a < b)
| fin _, pinf => true
| pinf, _ => false

/-- `a ≤ b` on extended floats. -/
def le (a b : FVal) : Bool := lt a b || decide (a = b)

end FVal

/-- The Python exception kinds surfaced by the embedded code. -/
inductive Err where
| typeError
| valueError (msg : String)
| indexError
| attributeError
deriving DecidableEq, Repr

/-- A numpy float array. -/
abbrev Vec := List ℚ

/-- Python's `abs` on a float (kept kernel-reducible). -/
def absQ (q : ℚ) : ℚ := if q < 0 then -q else q

/-- Dereference a value that Python would use without a null check: `None`
raises. -/
def optToExcept {α : Type} (o : Option α) (e : Err) : Except Err α :=
  match o with
  | some v => .ok v
  | none => .error e

/-- Elementwise combination of three equal-length vectors (extra elements of
longer arguments are dropped, as with `List.zipWith`). -/
def zip3With (f : ℚ → ℚ → ℚ → ℚ) : Vec → Vec → Vec → Vec
| a :: as, b :: bs, c :: cs => f a b c :: zip3With f as bs cs
| _, _, _ => []

/-- numpy elementwise addition; a length mismatch is a broadcast error. -/
def vAdd (a b : Vec) : Except Err Vec :=
  if a.length = b.length then .ok (List.zipWith (· + ·) a b)
  else .error (.valueError "broadcast")

/-- numpy elementwise subtraction (equal lengths). -/
def vSub (a b : Vec) : Except Err Vec :=
  if a.length = b.length then .ok (List.zipWith (· - ·) a b)
  else .error (.valueError "broadcast")

/-- numpy elementwise product (equal lengths). -/
def vMul (a b : Vec) : Except Err Vec :=
  if a.length = b.length then .ok (List.zipWith (· * ·) a b)
  else .error (.valueError "broadcast")

/-- numpy subtraction with the length-1 broadcast rule, as used by
`precision_position` (`best_position - optimal_position`). -/
def vSubBroadcast (a b : Vec) : Except Err Vec :=
  if a.length = b.length then .ok (List.zipWith (· - ·) a b)
  else if b.length = 1 then .ok (a.map (· - b.headD 0))
  else if a.length = 1 then .ok (b.map (a.headD 0 - ·))
  else .error (.valueError "broadcast")

/-- `np.clip(v, lo, hi)` elementwise: `min (max x lo) hi`. -/
def npClip (v lo hi : Vec) : Except Err Vec :=
  if v.length = lo.length ∧ v.length = hi.length then
    .ok (zip3With (fun x l h => min (max x l) h) v lo hi)
  else .error (.valueError "broadcast")

/-- `lo ≤ x ≤ hi` elementwise, including the length agreements
(the Bool form keeps the claims decidable on concrete inputs). -/
def withinB : Vec → Vec → Vec → Bool
| [], [], [] => true
| l :: lo, h :: hi, x :: v => decide (l ≤ x) && decide (x ≤ h) && withinB lo hi v
| _, _, _ => false

/-- Elementwise `lo ≤ hi` with equal lengths — what the builder guarantees
for the derived bound arrays. -/
def leB : Vec → Vec → Bool
| [], [] => true
| l :: lo, h :: hi => decide (l ≤ h) && leB lo hi
| _, _ => false

/-- The stream of uniform draws behind `np.random`; `idx` is the number of
draws already consumed. -/
structure Rng where
  seq : ℕ → ℚ
  idx : ℕ

/-- Consume one draw. -/
def Rng.next (r : Rng) : ℚ × Rng := (r.seq r.idx, ⟨r.seq, r.idx + 1⟩)

/-- Consume `n` draws. -/
def Rng.draws : Rng → ℕ → List ℚ × Rng
| r, 0 => ([], r)
| r, n + 1 =>
  let (u, r1) := r.next
  let (us, r2) := r1.draws n
  (u :: us, r2)

/-- All raw draws of the stream lie in `[0, 1]`, as numpy guarantees. -/
def Rng.inUnit (r : Rng) : Prop := ∀ n : ℕ, 0 ≤ r.seq n ∧ r.seq n ≤ 1

/-- `np.random.uniform(lo, hi, d)` with per-dimension bound arrays:
`lo + u * (hi - lo)` with an independent draw per dimension. -/
def uniformVec (lo hi : Vec) (d : ℕ) (r : Rng) : Vec × Rng :=
  let (us, r1) := r.draws d
  (zip3With (fun l h u => l + u * (h - l)) lo hi us, r1)

/-- `np.random.uniform(-1, 1, d)`. -/
def uniformSym (d : ℕ) (r : Rng) : Vec × Rng :=
  let (us, r1) := r.draws d
  (us.map (fun u => -1 + u * 2), r1)

/-- One particle of the swarm (`swarm/particle.py`).  Fields that
`Particle.__init__` sets to `None` are `Option`s; `neighbours` holds indices
into the owning swarm's particle list — the shallow embedding of the
object references the source stores there. -/
structure Particle where
  problem_type : Option String
  position : Option Vec
  velocity : Option Vec
  best_position : Option Vec
  best_score : FVal
  score : Option ℚ
  neighbours : List ℕ
deriving DecidableEq, Repr

/-- `Particle.__init__`: `best_score = np.inf if problem_type == "min" else
-np.inf` — note that an unset (`None`) problem type yields `-np.inf`. -/
def Particle.init (pt : Option String) : Particle :=
  { problem_type := pt
    position := none
    velocity := none
    best_position := none
    best_score := if pt = some "min" then .pinf else .ninf
    score := none
    neighbours := [] }

/-- `Particle.evaluate`: score the current position with the objective and
update the personal best exactly on strict improvement; `best_position`
receives a copy of `position` (value semantics here).  Evaluating with an
unset position is the TypeError the objective raises on a non-array. -/
def Particle.evaluate (f : Vec → Except Err ℚ) (p : Particle) : Except Err Particle := do
  match p.position with
  | none => .error .typeError
  | some pos => do
    let s ← f pos
    if p.problem_type = some "max" ∧ FVal.lt p.best_score (.fin s) = true then
      .ok { p with score := some s, best_score := .fin s, best_position := some pos }
    else if p.problem_type = some "min" ∧ FVal.lt (.fin s) p.best_score = true then
      .ok { p with score := some s, best_score := .fin s, best_position := some pos }
    else
      .ok { p with score := some s }

/-- An objective-function entry: the resolved callable together with its
`__name__` (which `SwarmEvaluator` passes to `ConvergenceCalculator`). -/
structure ObjFn where
  name : String
  fn : Vec → Except Err ℚ

/-- The run-level state (`swarm/swarm.py`).  `run_id` and the timestamps
carry no algorithmic content and are omitted. -/
structure Swarm where
  current_iteration : ℕ
  max_iterations : Option ℕ
  problem_type : Option String
  num_particles : Option ℕ
  dimensions : Option ℕ
  bounds : Option (List (ℚ × ℚ))
  lower_bounds : Option Vec
  upper_bounds : Option Vec
  cognitive_weight : Option ℚ
  social_weight : Option ℚ
  inertia_weight : Option ℚ
  objective_function : Option ObjFn
  particles : List Particle
  global_best_score : Option FVal
  global_best_position : Option Vec
  position_initialised : Bool
  velocity_initialised : Bool
  topology_initialised : Bool
  score_precision : List FVal
  position_precision : List ℚ
  converged : Bool
  convergence_iteration : Option ℕ
  convergence_rate : Option ℚ

/-- `Swarm.__init__()` as the builder calls it (every argument defaulted). -/
def Swarm.init : Swarm :=
  { current_iteration := 0
    max_iterations := none
    problem_type := none
    num_particles := none
    dimensions := none
    bounds := none
    lower_bounds := none
    upper_bounds := none
    cognitive_weight := none
    social_weight := none
    inertia_weight := none
    objective_function := none
    particles := []
    global_best_score := none
    global_best_position := none
    position_initialised := false
    velocity_initialised := false
    topology_initialised := false
    score_precision := []
    position_precision := []
    converged := false
    convergence_iteration := none
    convergence_rate := none }

/-- `Swarm.evaluate`: evaluate every particle with the swarm's objective. -/
def Swarm.evaluate (s : Swarm) : Except Err Swarm := do
  match s.objective_function with
  | none => .error .typeError
  | some f => do
    let ps ← s.particles.mapM (Particle.evaluate f.fn)
    .ok { s with particles := ps }

/-- The names in `ConvergenceCalculator.OPTIMAL_VALUES`. -/
def optimalNames : List String := ["sphere", "quadratic_1d", "quadratic_2d", "rastrigin"]

/-- The `optimal_position` lambdas of `OPTIMAL_VALUES`: the origin, with a
fixed length 1 (resp. 2) for the quadratic entries and the given
dimensionality otherwise. -/
def optimalPositionFor (name : String) (dim : ℕ) : Vec :=
  if name = "quadratic_1d" then List.replicate 1 0
  else if name = "quadratic_2d" then List.replicate 2 0
  else List.replicate dim 0

/-- `fitness/convergence.py`: calculator state after `__init__`. -/
structure ConvergenceCalculator where
  function_name : String
  dimensions : ℕ
  tolerance : ℚ
  optimal_position : Vec
  optimal_score : ℚ
deriving DecidableEq, Repr

/-- `ConvergenceCalculator.__init__` with the default tolerance `1e-6`;
an unknown function name raises `ValueError`. -/
def ConvergenceCalculator.make (name : String) (dims : ℕ) : Except Err ConvergenceCalculator :=
  if name ∈ optimalNames then
    .ok { function_name := name
          dimensions := dims
          tolerance := 1 / 1000000
          optimal_position := optimalPositionFor name dims
          optimal_score := 0 }
  else .error (.valueError ("Unknown function: " ++ name))

/-- `precision_score`: `abs(best_score - optimal_score)`; an infinite best
score gives `inf`. -/
def ConvergenceCalculator.precision_score (c : ConvergenceCalculator) : FVal → FVal
| .fin q => .fin (absQ (q - c.optimal_score))
| _ => .pinf

/-- `precision_position`.  The source returns the Euclidean norm of
`best_position - optimal_position`; the square root of a rational is not
rational-computable, so the model records the squared norm, which vanishes
exactly when the norm does (no claim depends on any other value of this
sequence). -/
def ConvergenceCalculator.precision_position (c : ConvergenceCalculator) (pos : Vec) :
    Except Err ℚ := do
  let d ← vSubBroadcast pos c.optimal_position
  .ok (d.foldr (fun x acc => x * x + acc) 0)

/-- `check_convergence`: `abs(best_score - optimal_score) <= tolerance`. -/
def ConvergenceCalculator.check_convergence (c : ConvergenceCalculator) : FVal → Bool
| .fin q => decide (absQ (q - c.optimal_score) ≤ c.tolerance)
| _ => false

/-- `convergence_rate`: `(convergence_iteration / max_iterations) * 100`. -/
def ConvergenceCalculator.convergence_rate (it mx : ℕ) : ℚ :=
  ((it : ℚ) / (mx : ℚ)) * 100

/-- Python list indexing with the negative-index wraparound rule. -/
def pyGet (l : List α) (i : Int) : Except Err α :=
  if 0 ≤ i then
    match l.get? i.toNat with
    | some a => .ok a
    | none => .error .indexError
  else
    match l.get? ((l.length : Int) + i).toNat with
    | some a => if (l.length : Int) + i < 0 then .error .indexError else .ok a
    | none => .error .indexError

namespace GlobalTopology

/-- `GlobalTopology.assign_neighbours`: every element except the one at
`index`, in original order. -/
def assign_neighbours (particles : List α) (index : ℕ) : List α :=
  (particles.enum.filter (fun x => x.1 ≠ index)).map (·.2)

end GlobalTopology

namespace RingTopology

/-- `RingTopology.assign_neighbours`:
`[particles[index - 1], particles[(index + 1) % len(particles)]]`. -/
def assign_neighbours (particles : List α) (index : ℕ) : Except Err (List α) := do
  let a ← pyGet particles ((index : Int) - 1)
  let b ← pyGet particles (((index : Int) + 1) % (particles.length : Int))
  .ok [a, b]

end RingTopology

/-- Thread an rng-consuming per-particle action through the particle list. -/
def mapRng (g : Particle → Rng → Particle × Rng) : List Particle → Rng → List Particle × Rng
| [], r => ([], r)
| p :: ps, r =>
  let (p1, r1) := g p r
  let (ps1, r2) := mapRng g ps r1
  (p1 :: ps1, r2)

/-- `InitialisePosition.process`: gated by `position_initialised`; each
particle's position is drawn by `np.random.uniform(lower_bounds,
upper_bounds, dimensions)`.  Reading the derived bound arrays before
`with_bounds` set them is the source's AttributeError; a dimension count
that disagrees with the bound arrays is a broadcast error. -/
def initialisePosition (s : Swarm) (r : Rng) : Except Err (Swarm × Rng) :=
  if s.position_initialised then .ok (s, r)
  else
    match s.lower_bounds, s.upper_bounds, s.dimensions with
    | some lo, some hi, some d =>
      if lo.length = d ∧ hi.length = d then
        let (ps, r1) := mapRng
          (fun p rr =>
            let (pos, rr1) := uniformVec lo hi d rr
            ({ p with position := some pos }, rr1)) s.particles r
        .ok ({ s with particles := ps, position_initialised := true }, r1)
      else .error (.valueError "broadcast")
    | _, _, _ => .error .attributeError

/-- `InitialiseVelocity.process`: gated by `velocity_initialised`; each
particle's velocity is drawn by `np.random.uniform(-1, 1, dimensions)`. -/
def initialiseVelocity (s : Swarm) (r : Rng) : Except Err (Swarm × Rng) :=
  if s.velocity_initialised then .ok (s, r)
  else
    match s.dimensions with
    | some d =>
      let (ps, r1) := mapRng
        (fun p rr =>
          let (v, rr1) := uniformSym d rr
          ({ p with velocity := some v }, rr1)) s.particles r
      .ok ({ s with particles := ps, velocity_initialised := true }, r1)
    | none => .error .typeError

/-- The neighbour indices `GlobalTopology.assign_neighbours` produces for
index `i` of an `n`-particle swarm. -/
def globalNeighbourIdx (n i : ℕ) : List ℕ := (List.range n).filter (· ≠ i)

/-- The neighbour indices `RingTopology.assign_neighbours` produces for
index `i` of an `n`-particle swarm (`particles[i - 1]` with Python's
negative-index wraparound, and `particles[(i + 1) % n]`). -/
def ringNeighbourIdx (n i : ℕ) : List ℕ :=
  [if i = 0 then n - 1 else i - 1, (i + 1) % n]

/-- Which topology variant an `InitialiseTopology` stage uses. -/
inductive TopologyKind where
| globalT
| ringT
deriving DecidableEq, Repr

/-- `InitialiseGlobalTopology.process` / `InitialiseRingTopology.process`:
gated by `topology_initialised`; stores each particle's neighbour set, as
indices into the particle list (the embedding of the stored references). -/
def initialiseTopology (k : TopologyKind) (s : Swarm) : Swarm :=
  if s.topology_initialised then s
  else
    let n := s.particles.length
    let idx := fun i => match k with
      | .globalT => globalNeighbourIdx n i
      | .ringT => ringNeighbourIdx n i
    { s with
      particles := s.particles.enum.map (fun x => { x.2 with neighbours := idx x.1 })
      topology_initialised := true }

/-- The loop comparison `score > best_score` of `SwarmEvaluator` — both a
`None` score and a `None` running best make the float comparison a
TypeError. -/
def floatGt (score : Option ℚ) (best : Option FVal) : Except Err Bool :=
  match score, best with
  | some q, some v => .ok (FVal.lt v (.fin q))
  | _, _ => .error .typeError

/-- The loop comparison `score < best_score` of `SwarmEvaluator`. -/
def floatLt (score : Option ℚ) (best : Option FVal) : Except Err Bool :=
  match score, best with
  | some q, some v => .ok (FVal.lt (.fin q) v)
  | _, _ => .error .typeError

/-- The adoption condition of the `SwarmEvaluator` scan: short-circuit on a
still seeded (`== ±np.inf`) running best, otherwise strict comparison. -/
def sweAdoptCond (pt : Option String) (best : Option FVal) (score : Option ℚ) :
    Except Err Bool :=
  if pt = some "max" then
    if best = some .ninf then pure true else floatGt score best
  else if pt = some "min" then
    if best = some .pinf then pure true else floatLt score best
  else pure false

/-- Adopt the current particle's score and (a copy of) its position as the
running global best; `position.copy()` on an unset position is an
AttributeError. -/
def sweAdopt (p : Particle) : Except Err (Option FVal × Option Vec) :=
  match p.position with
  | none => .error .attributeError
  | some pos => .ok (p.score.map .fin, some pos)

/-- The particle scan of `SwarmEvaluator.process`. -/
def sweLoop (pt : Option String) : List Particle → Option FVal × Option Vec →
    Except Err (Option FVal × Option Vec)
| [], acc => .ok acc
| p :: ps, (best, bestPos) => do
  let adopt ← sweAdoptCond pt best p.score
  let acc1 ← if adopt then sweAdopt p else pure (best, bestPos)
  sweLoop pt ps acc1

/-- `SwarmEvaluator.process`: update the global best by the scan, then build
a `ConvergenceCalculator` and append one score-precision and one
position-precision entry.  The source does NOT touch `converged`,
`convergence_iteration` or `convergence_rate` here. -/
def swarmEvaluatorProcess (s : Swarm) : Except Err Swarm := do
  let (best, bestPos) ← sweLoop s.problem_type s.particles
    (s.global_best_score, s.global_best_position)
  let s1 := { s with global_best_score := best, global_best_position := bestPos }
  match s1.objective_function, s1.dimensions with
  | some f, some d => do
    let c ← ConvergenceCalculator.make f.name d
    let bv ← optToExcept best .typeError
    let pv ← optToExcept bestPos .typeError
    let pp ← c.precision_position pv
    .ok { s1 with
          score_precision := s1.score_precision ++ [c.precision_score bv]
          position_precision := s1.position_precision ++ [pp] }
  | _, _ => .error .attributeError

/-- `max(neighbours, key=p.best_score)` resp. `min(...)`: the first
occurrence of the extreme `best_score` among the referenced neighbours; an
empty sequence is Python's ValueError.  Anything other than `"max"` takes
the `else` (min) branch, as in the source. -/
def selectNeighbourBest (pt : Option String) (ps : List Particle) (idxs : List ℕ) :
    Except Err Particle := do
  let ns ← idxs.mapM (fun j => optToExcept (ps.get? j) Err.indexError)
  match ns with
  | [] => .error (.valueError "empty sequence")
  | q :: qs =>
    if pt = some "max" then
      .ok (qs.foldl (fun w p => if FVal.lt w.best_score p.best_score then p else w) q)
    else
      .ok (qs.foldl (fun w p => if FVal.lt p.best_score w.best_score then p else w) q)

/-- The body of the `UpdateVelocity` loop for the particle at index `i`:
select the best neighbour, draw the cognitive and social coefficients, and
clip the new velocity into the position bounds.  The neighbour lookup reads
the current list, matching the reference semantics of the source. -/
def updateVelocityStep (pt : Option String) (lo hi : Vec) (d : ℕ) (cw sw iw : ℚ)
    (ps : List Particle) (i : ℕ) (r : Rng) : Except Err (List Particle × Rng) := do
  match ps.get? i with
  | none => .ok (ps, r)
  | some p => do
    let nb ← selectNeighbourBest pt ps p.neighbours
    let nbp ← optToExcept nb.best_position .typeError
    let pos ← optToExcept p.position .typeError
    let bp ← optToExcept p.best_position .typeError
    let vel ← optToExcept p.velocity .typeError
    let (u1, r1) := r.draws d
    let diff1 ← vSub bp pos
    let c1 ← vMul u1 diff1
    let cognitive := c1.map (cw * ·)
    let (u2, r2) := r1.draws d
    let diff2 ← vSub nbp pos
    let c2 ← vMul u2 diff2
    let social := c2.map (sw * ·)
    let v1 ← vAdd (vel.map (iw * ·)) cognitive
    let v2 ← vAdd v1 social
    let v3 ← npClip v2 lo hi
    .ok (ps.set i { p with velocity := some v3 }, r2)

/-- The `for particle in swarm.particles` loop of `UpdateVelocity.process`,
as a left-to-right pass over the particle indices. -/
def updateVelocityLoop (pt : Option String) (lo hi : Vec) (d : ℕ) (cw sw iw : ℚ) :
    List ℕ → List Particle → Rng → Except Err (List Particle × Rng)
| [], ps, r => .ok (ps, r)
| i :: is, ps, r => do
  let (ps1, r1) ← updateVelocityStep pt lo hi d cw sw iw ps i r
  updateVelocityLoop pt lo hi d cw sw iw is ps1 r1

/-- `UpdateVelocity.process`.  Arithmetic with a still unset weight or bound
array is a TypeError / AttributeError, as in Python. -/
def updateVelocity (s : Swarm) (r : Rng) : Except Err (Swarm × Rng) :=
  match s.lower_bounds, s.upper_bounds, s.dimensions,
        s.cognitive_weight, s.social_weight, s.inertia_weight with
  | some lo, some hi, some d, some cw, some sw, some iw => do
    let (ps, r1) ← updateVelocityLoop s.problem_type lo hi d cw sw iw
      (List.range s.particles.length) s.particles r
    .ok ({ s with particles := ps }, r1)
  | _, _, _, _, _, _ => .error .attributeError

/-- The body of the `UpdatePosition` loop: `position += velocity`, then
`np.clip` into the bounds. -/
def updatePositionStep (lo hi : Vec) (p : Particle) : Except Err Particle := do
  let pos ← optToExcept p.position .typeError
  let vel ← optToExcept p.velocity .typeError
  let pos1 ← vAdd pos vel
  let pos2 ← npClip pos1 lo hi
  .ok { p with position := some pos2 }

/-- `UpdatePosition.process`. -/
def updatePosition (s : Swarm) : Except Err Swarm :=
  match s.lower_bounds, s.upper_bounds with
  | some lo, some hi => do
    let ps ← s.particles.mapM (updatePositionStep lo hi)
    .ok { s with particles := ps }
  | _, _ => .error .attributeError

/-- The core stages a `PSOPipeline` sequences (`processors/*`); the
`MongoDBExporter` stage is an external collaborator and is stubbed out. -/
inductive StageTag where
| initPosition
| initVelocity
| initTopology (k : TopologyKind)
| particleEval
| swarmEval
| updateVel
| updatePos
deriving DecidableEq, Repr

/-- Dispatch one stage's `process`. -/
def runStage : StageTag → Swarm × Rng → Except Err (Swarm × Rng)
| .initPosition, (s, r) => initialisePosition s r
| .initVelocity, (s, r) => initialiseVelocity s r
| .initTopology k, (s, r) => .ok (initialiseTopology k s, r)
| .particleEval, (s, r) => (Swarm.evaluate s).map (fun s1 => (s1, r))
| .swarmEval, (s, r) => (swarmEvaluatorProcess s).map (fun s1 => (s1, r))
| .updateVel, (s, r) => updateVelocity s r
| .updatePos, (s, r) => (updatePosition s).map (fun s1 => (s1, r))

/-- `PSOPipeline.run`: thread the swarm through the stages in order. -/
def pipelineRun (stages : List StageTag) (sr : Swarm × Rng) : Except Err (Swarm × Rng) :=
  stages.foldlM (fun acc st => runStage st acc) sr

/-- The two standard pipelines with the Export stage stubbed out. -/
def standardStages (k : TopologyKind) : List StageTag :=
  [.initPosition, .initVelocity, .initTopology k, .particleEval, .swarmEval,
   .updateVel, .updatePos]

/-- The iteration loop of `PSORunner.run`: run the pipeline, then increment
`current_iteration`, `max_iterations` times. -/
def runnerLoop (stages : List StageTag) : ℕ → Swarm × Rng → Except Err (Swarm × Rng)
| 0, sr => .ok sr
| n + 1, sr => do
  let (s, r) ← pipelineRun stages sr
  runnerLoop stages n ({ s with current_iteration := s.current_iteration + 1 }, r)

/-- `PSORunner.run`: `for i in range(self.swarm.max_iterations)` — iterating
over an unset iteration count is Python's TypeError. -/
def runnerRun (stages : List StageTag) (s : Swarm) (r : Rng) : Except Err (Swarm × Rng) :=
  match s.max_iterations with
  | none => .error .typeError
  | some m => runnerLoop stages m (s, r)

/-- `fitness/functions.py` — `quadratic_1d`: `position[0]**2`; an empty
array makes the index an IndexError (the scalar TypeError branch cannot
arise on the `Vec` input type). -/
def quadratic_1d (v : Vec) : Except Err ℚ :=
  match v.get? 0 with
  | some a => .ok (a ^ 2)
  | none => .error .indexError

/-- `quadratic_2d`: `position[0]**2 + position[1]**2`. -/
def quadratic_2d (v : Vec) : Except Err ℚ :=
  match v.get? 0, v.get? 1 with
  | some a, some b => .ok (a ^ 2 + b ^ 2)
  | _, _ => .error .indexError

/-- `sphere`: `np.sum(np.square(position))`. -/
def sphere (v : Vec) : Except Err ℚ :=
  .ok (v.foldr (fun x acc => x ^ 2 + acc) 0)

/-- `rastrigin`: `10 * n + Σ (x_i² - 10 cos(2π x_i))`.  The cosine has no
rational-executable form, so the per-coordinate term
`x ↦ x² - 10·cos(2π·x)` is taken as the parameter `rterm` of the
development; no claim depends on its values. -/
def rastrigin (rterm : ℚ → ℚ) (v : Vec) : Except Err ℚ :=
  .ok (10 * v.length + v.foldr (fun x acc => rterm x + acc) 0)

/-- `getattr(fitness, name)` restricted to the objective functions the
fitness module defines. -/
def fitnessRegistry (rterm : ℚ → ℚ) (name : String) : Option ObjFn :=
  if name = "quadratic_1d" then some ⟨"quadratic_1d", quadratic_1d⟩
  else if name = "quadratic_2d" then some ⟨"quadratic_2d", quadratic_2d⟩
  else if name = "sphere" then some ⟨"sphere", sphere⟩
  else if name = "rastrigin" then some ⟨"rastrigin", rastrigin rterm⟩
  else none

namespace SwarmBuilder

/-- `with_problem_type`: validate the value and seed the global best score
at `+inf` (min) or `-inf` (max). -/
def with_problem_type (s : Swarm) (pt : String) : Except Err Swarm :=
  if pt = "min" ∨ pt = "max" then
    .ok { s with
          problem_type := some pt
          global_best_score := some (if pt = "min" then .pinf else .ninf) }
  else .error (.valueError "Problem type must be either min or max.")

/-- `with_max_iterations`: at least 1. -/
def with_max_iterations (s : Swarm) (m : ℕ) : Except Err Swarm :=
  if m < 1 then .error (.valueError "Maximum iterations must be at least 1.")
  else .ok { s with max_iterations := some m }

/-- `with_objective_function`: resolve the name in the fitness module. -/
def with_objective_function (rterm : ℚ → ℚ) (s : Swarm) (name : String) : Except Err Swarm :=
  match fitnessRegistry rterm name with
  | some f => .ok { s with objective_function := some f }
  | none => .error .attributeError

/-- `with_num_particles`: at least 2; (re)allocates the particle list, each
particle constructed with the swarm's CURRENT `problem_type` (possibly still
unset). -/
def with_num_particles (s : Swarm) (n : ℕ) : Except Err Swarm :=
  if n < 2 then .error (.valueError "Number of particles must be at least 2.")
  else .ok { s with
             num_particles := some n
             particles := List.replicate n (Particle.init s.problem_type) }

/-- `with_bounds`: reject a pair whose lower bound EXCEEDS its upper bound
(equal bounds pass), then `zip(*bounds)` — which fails to unpack on an
empty list — and derive the per-dimension arrays and the dimension count.
(The per-pair length-2 check is vacuous on the pair type.) -/
def with_bounds (s : Swarm) (bounds : List (ℚ × ℚ)) : Except Err Swarm :=
  if bounds.any (fun b => decide (b.2 < b.1)) then
    .error (.valueError "Lower bound must be less than upper bound.")
  else if bounds = [] then
    .error (.valueError "not enough values to unpack")
  else
    .ok { s with
          bounds := some bounds
          lower_bounds := some (bounds.map (·.1))
          upper_bounds := some (bounds.map (·.2))
          dimensions := some bounds.length }

/-- `with_cognitive_weight`: non-negative. -/
def with_cognitive_weight (s : Swarm) (w : ℚ) : Except Err Swarm :=
  if w < 0 then .error (.valueError "Cognitive weight must be non-negative.")
  else .ok { s with cognitive_weight := some w }

/-- `with_social_weight`: non-negative. -/
def with_social_weight (s : Swarm) (w : ℚ) : Except Err Swarm :=
  if w < 0 then .error (.valueError "Social weight must be non-negative.")
  else .ok { s with social_weight := some w }

/-- `with_inertia_weight`: non-negative. -/
def with_inertia_weight (s : Swarm) (w : ℚ) : Except Err Swarm :=
  if w < 0 then .error (.valueError "Inertia weight must be non-negative.")
  else .ok { s with inertia_weight := some w }

/-- The first step of `build()`: re-stamp every particle's `problem_type`
(ONLY that field — `best_score` keeps whatever seed the particle was
constructed with). -/
def restamp (s : Swarm) : Swarm :=
  { s with
    particles := s.particles.map (fun (p : Particle) => { p with problem_type := s.problem_type }) }

/-- `build()`: re-stamp the particles, then check every required property is
set, in source order. -/
def build (s : Swarm) : Except Err Swarm :=
  if (restamp s).problem_type = none then
    .error (.valueError "Swarm is missing required property: problem_type")
  else if (restamp s).num_particles = none then
    .error (.valueError "Swarm is missing required property: num_particles")
  else if (restamp s).bounds = none then
    .error (.valueError "Swarm is missing required property: bounds")
  else if (restamp s).cognitive_weight = none then
    .error (.valueError "Swarm is missing required property: cognitive_weight")
  else if (restamp s).social_weight = none then
    .error (.valueError "Swarm is missing required property: social_weight")
  else if (restamp s).inertia_weight = none then
    .error (.valueError "Swarm is missing required property: inertia_weight")
  else if (restamp s).objective_function.isNone then
    .error (.valueError "Swarm is missing required property: objective_function")
  else if (restamp s).max_iterations = none then
    .error (.valueError "Swarm is missing required property: max_iterations")
  else .ok (restamp s)

/-- One recognized key/value entry of a `build_from_dict` mapping. -/
inductive CfgField where
| problem_type (v : String)
| num_particles (v : ℕ)
| bounds (v : List (ℚ × ℚ))
| cognitive_weight (v : ℚ)
| social_weight (v : ℚ)
| inertia_weight (v : ℚ)
| objective_function (v : String)
| max_iterations (v : ℕ)

/-- The dictionary key an entry is stored under. -/
def CfgField.key : CfgField → ℕ
| .problem_type _ => 0
| .num_particles _ => 1
| .bounds _ => 2
| .cognitive_weight _ => 3
| .social_weight _ => 4
| .inertia_weight _ => 5
| .objective_function _ => 6
| .max_iterations _ => 7

/-- Dispatch one recognized entry to its builder method. -/
def applyField (rterm : ℚ → ℚ) (s : Swarm) : CfgField → Except Err Swarm
| .problem_type v => with_problem_type s v
| .num_particles v => with_num_particles s v
| .bounds v => with_bounds s v
| .cognitive_weight v => with_cognitive_weight s v
| .social_weight v => with_social_weight s v
| .inertia_weight v => with_inertia_weight s v
| .objective_function v => with_objective_function rterm s v
| .max_iterations v => with_max_iterations s v

/-- Apply the recognized entries of the mapping in order. -/
def applyFields (rterm : ℚ → ℚ) : Swarm → List CfgField → Except Err Swarm
| s, [] => .ok s
| s, c :: cs => do
  let s1 ← applyField rterm s c
  applyFields rterm s1 cs

/-- `build_from_dict`: apply the recognized keys in the mapping's iteration
order, then `build()`.  A Python dict has unique keys, so well-formed inputs
have `Nodup` keys; unrecognized keys are skipped and carry no content, so
the entry list holds only recognized keys. -/
def build_from_dict (rterm : ℚ → ℚ) (fields : List CfgField) : Except Err Swarm := do
  let s ← applyFields rterm Swarm.init fields
  build s

/-- The validation each builder method performs — it inspects only the
argument value, never the accumulated state. -/
def fieldValid : CfgField → Bool
| .problem_type v => decide (v = "min") || decide (v = "max")
| .num_particles v => decide (2 ≤ v)
| .bounds v => !(v.any fun b => decide (b.2 < b.1)) && !v.isEmpty
| .cognitive_weight v => decide (0 ≤ v)
| .social_weight v => decide (0 ≤ v)
| .inertia_weight v => decide (0 ≤ v)
| .objective_function v =>
    decide (v = "quadratic_1d") || decide (v = "quadratic_2d") ||
    decide (v = "sphere") || decide (v = "rastrigin")
| .max_iterations v => decide (1 ≤ v)

/-- The state update each builder method performs on success (used to reason
about arbitrary application orders). -/
def applyAction (rterm : ℚ → ℚ) (s : Swarm) : CfgField → Swarm
| .problem_type v =>
    { s with problem_type := some v
             global_best_score := some (if v = "min" then .pinf else .ninf) }
| .num_particles v =>
    { s with num_particles := some v
             particles := List.replicate v (Particle.init s.problem_type) }
| .bounds v =>
    { s with bounds := some v
             lower_bounds := some (v.map (·.1))
             upper_bounds := some (v.map (·.2))
             dimensions := some v.length }
| .cognitive_weight v => { s with cognitive_weight := some v }
| .social_weight v => { s with social_weight := some v }
| .inertia_weight v => { s with inertia_weight := some v }
| .objective_function v => { s with objective_function := fitnessRegistry rterm v }
| .max_iterations v => { s with max_iterations := some v }

end SwarmBuilder

/-! ## Concrete instances used by the claim theorems -/

/-- A stand-in for the non-rational rastrigin coordinate term, used when a
claim needs a concrete registry. -/
def rtermZero : ℚ → ℚ := fun _ => 0

/-- An evaluated particle of the `test_processors.py` fixture state: `min`
swarm over `sphere` in 2 dimensions, scored at position `[1, 1]`. -/
def fixtureParticle : Particle :=
  { problem_type := some "min"
    position := some [1, 1]
    velocity := some [0, 0]
    best_position := some [1, 1]
    best_score := .fin 2
    score := some 2
    neighbours := [1] }

/-- The swarm state of the repo's `test_swarm_evaluator` scenario right
before the `SwarmEvaluator.process` call: a built-and-evaluated `min` /
`sphere` swarm with the global best manually seeded to the optimum
(`global_best_score = 0`, `global_best_position = [0, 0]`). -/
def fixtureSwarm : Swarm :=
  { Swarm.init with
    max_iterations := some 10
    problem_type := some "min"
    num_particles := some 2
    dimensions := some 2
    bounds := some [(-5, 5), (-5, 5)]
    lower_bounds := some [-5, -5]
    upper_bounds := some [5, 5]
    cognitive_weight := some (1/2)
    social_weight := some (1/2)
    inertia_weight := some (1/2)
    objective_function := some ⟨"sphere", sphere⟩
    particles := [fixtureParticle, fixtureParticle]
    global_best_score := some (.fin 0)
    global_best_position := some [0, 0]
    position_initialised := true
    velocity_initialised := true
    topology_initialised := true }

/-- A small well-ordered configuration (`problem_type` before
`num_particles`), as the test suites build it. -/
def demoFields : List SwarmBuilder.CfgField :=
  [.problem_type "min", .max_iterations 1, .objective_function "sphere",
   .num_particles 2, .bounds [(0, 2)],
   .cognitive_weight (1/2), .social_weight (1/2), .inertia_weight (1/2)]

/-- The same configuration with `num_particles` listed BEFORE
`problem_type` (a perfectly legal Python dict order). -/
def badOrderFields : List SwarmBuilder.CfgField :=
  [.num_particles 2, .problem_type "min", .max_iterations 1,
   .objective_function "sphere", .bounds [(0, 2)],
   .cognitive_weight (1/2), .social_weight (1/2), .inertia_weight (1/2)]

/-- The swarm built from `demoFields`. -/
def demoSwarm : Swarm :=
  (SwarmBuilder.build_from_dict rtermZero demoFields).toOption.getD Swarm.init

/-- The swarm built from `badOrderFields`. -/
def badOrderSwarm : Swarm :=
  (SwarmBuilder.build_from_dict rtermZero badOrderFields).toOption.getD Swarm.init

/-- A deterministic stand-in random stream: every draw is `1/2`. -/
def rngHalf : Rng := ⟨fun _ => 1/2, 0⟩

/-- A sequence of `Particle.evaluate` calls on one particle, one objective
per call (the objective is fixed in a run; letting it vary only strengthens
the statements quantified over this). -/
def evalSeq (fs : List (Vec → Except Err ℚ)) (p : Particle) : Except Err Particle :=
  fs.foldlM (fun q f => Particle.evaluate f q) p

/-- The `best_score` seed `Particle.__init__` / `with_problem_type` install
for a set problem type. -/
def seedFor (pt : String) : FVal := if pt = "min" then .pinf else .ninf

/-- The per-particle running condition of a healthy pipeline pass: the
problem type is stamped, position / velocity / personal best are arrays of
the swarm's dimensionality (the position inside the bounds), the particle
has been scored, and the stored neighbour indices are a nonempty set of
valid indices into the particle list. -/
def GoodP (pt : String) (d n : ℕ) (lo hi : Vec) (p : Particle) : Prop :=
  p.problem_type = some pt ∧
  (∃ x, p.position = some x ∧ x.length = d ∧ withinB lo hi x = true) ∧
  (∃ v, p.velocity = some v ∧ v.length = d) ∧
  (∃ b, p.best_position = some b ∧ b.length = d) ∧
  (∃ q, p.score = some q) ∧
  p.neighbours ≠ [] ∧ (∀ j ∈ p.neighbours, j < n)

/-- The swarm-level invariant holding at every iteration boundary of a
well-seeded run: configuration fields set, one-shot flags consumed, every
particle in running shape, and a finite global best whose position is a
dimension-length vector inside the bounds. -/
def SInv (pt : String) (d : ℕ) (lo hi : Vec) (f : ObjFn) (s : Swarm) : Prop :=
  s.problem_type = some pt ∧
  s.lower_bounds = some lo ∧ s.upper_bounds = some hi ∧ s.dimensions = some d ∧
  (∃ w, s.cognitive_weight = some w) ∧ (∃ w, s.social_weight = some w) ∧
  (∃ w, s.inertia_weight = some w) ∧
  s.objective_function = some f ∧
  s.position_initialised = true ∧ s.velocity_initialised = true ∧
  s.topology_initialised = true ∧
  s.particles ≠ [] ∧
  (∀ p ∈ s.particles, GoodP pt d s.particles.length lo hi p) ∧
  (∃ q, s.global_best_score = some (.fin q)) ∧
  (∃ g, s.global_best_position = some g ∧ g.length = d ∧ withinB lo hi g = true)

/-- What a successful well-seeded build (the `problem_type` entry applied
before the `num_particles` entry) guarantees about the swarm handed to the
runner, before the first pipeline pass. -/
def BuiltReady (pt : String) (d : ℕ) (lo hi : Vec) (f : ObjFn) (s : Swarm) : Prop :=
  s.problem_type = some pt ∧
  s.lower_bounds = some lo ∧ s.upper_bounds = some hi ∧ s.dimensions = some d ∧
  (∃ w, s.cognitive_weight = some w) ∧ (∃ w, s.social_weight = some w) ∧
  (∃ w, s.inertia_weight = some w) ∧
  s.objective_function = some f ∧
  s.position_initialised = false ∧ s.velocity_initialised = false ∧
  s.topology_initialised = false ∧
  2 ≤ s.particles.length ∧
  (∀ p ∈ s.particles, p.problem_type = some pt ∧ p.best_score = seedFor pt) ∧
  s.global_best_score = some (seedFor pt) ∧
  s.current_iteration = 0

namespace RefModel

/-!
A reference-level (heap) model of the position arrays, used for the
aliasing claim: numpy arrays live in an explicit heap addressed by
allocation index, `.copy()` allocates a fresh cell, `+=` mutates a cell in
place, and `np.clip` allocates a fresh cell and rebinds the name.  Only the
arrays whose aliasing the claim is about (positions, personal bests, the
global best) are heap-allocated; everything else stays by value.
-/

/-- The array heap: cell `i` is the `i`-th array ever allocated. -/
abbrev Heap := List Vec

/-- Dereference a heap cell. -/
def readA (h : Heap) (i : ℕ) : Vec := (h.get? i).getD []

/-- A particle whose `position` and `best_position` are heap references. -/
structure RParticle where
  problem_type : Option String
  pos : ℕ
  vel : Vec
  best : Option ℕ
  best_score : FVal
  score : Option ℚ
deriving DecidableEq, Repr

/-- The swarm state of the heap model. -/
structure RState where
  heap : Heap
  particles : List RParticle
  problem_type : Option String
  gb_score : Option FVal
  gb_pos : Option ℕ
deriving DecidableEq, Repr

/-- `Particle.evaluate` in the heap model: on strict improvement
`best_position = self.position.copy()` ALLOCATES a fresh cell (id
`h.length`) holding the current position value.  The objective is taken
total here — evaluation errors are the value model's concern. -/
def rEvaluate (f : Vec → ℚ) (h : Heap) (p : RParticle) : Heap × RParticle :=
  if p.problem_type = some "max" ∧ FVal.lt p.best_score (.fin (f (readA h p.pos))) = true then
    (h ++ [readA h p.pos],
     { p with score := some (f (readA h p.pos)), best_score := .fin (f (readA h p.pos)),
              best := some h.length })
  else if p.problem_type = some "min" ∧ FVal.lt (.fin (f (readA h p.pos))) p.best_score = true then
    (h ++ [readA h p.pos],
     { p with score := some (f (readA h p.pos)), best_score := .fin (f (readA h p.pos)),
              best := some h.length })
  else (h, { p with score := some (f (readA h p.pos)) })

/-- The `for particle in swarm.particles` loop of `Swarm.evaluate`. -/
def rEvalList (f : Vec → ℚ) : Heap → List RParticle → Heap × List RParticle
| h, [] => (h, [])
| h, p :: ps =>
  let x1 := rEvaluate f h p
  let x2 := rEvalList f x1.1 ps
  (x2.1, x1.2 :: x2.2)

/-- `ParticleEvaluator.process` in the heap model. -/
def rEvaluateAll (f : Vec → ℚ) (s : RState) : RState :=
  { s with heap := (rEvalList f s.heap s.particles).1
           particles := (rEvalList f s.heap s.particles).2 }

/-- The particle scan of `SwarmEvaluator.process` in the heap model: an
adoption stores `particle.position.copy()` — a FRESH cell. -/
def rSweLoop (pt : Option String) :
    Heap → List RParticle → Option FVal × Option ℕ →
    Except Err (Heap × (Option FVal × Option ℕ))
| h, [], acc => .ok (h, acc)
| h, p :: ps, (best, bestPos) => do
  let adopt ← sweAdoptCond pt best p.score
  if adopt then
    rSweLoop pt (h ++ [readA h p.pos]) ps (p.score.map .fin, some h.length)
  else
    rSweLoop pt h ps (best, bestPos)

/-- `SwarmEvaluator.process` (the global-best update of lines 43–52) in the
heap model; the precision bookkeeping carries no references and is
elided here. -/
def rSwarmEval (s : RState) : Except Err RState := do
  let x ← rSweLoop s.problem_type s.heap s.particles (s.gb_score, s.gb_pos)
  .ok { s with heap := x.1, gb_score := x.2.1, gb_pos := x.2.2 }

/-- One `UpdatePosition` body in the heap model:
`particle.position += particle.velocity` MUTATES the cell in place, then
`particle.position = np.clip(...)` allocates a fresh cell and rebinds. -/
def rUpdateParticle (lo hi : Vec) (h : Heap) (p : RParticle) :
    Except Err (Heap × RParticle) := do
  let sum ← vAdd (readA h p.pos) p.vel
  let clipped ← npClip (readA (h.set p.pos sum) p.pos) lo hi
  .ok ((h.set p.pos sum) ++ [clipped], { p with pos := (h.set p.pos sum).length })

/-- The `UpdatePosition` particle loop. -/
def rUpdateList (lo hi : Vec) : Heap → List RParticle → Except Err (Heap × List RParticle)
| h, [] => .ok (h, [])
| h, p :: ps => do
  let x1 ← rUpdateParticle lo hi h p
  let x2 ← rUpdateList lo hi x1.1 ps
  .ok (x2.1, x1.2 :: x2.2)

/-- `UpdatePosition.process` in the heap model. -/
def rUpdatePosition (lo hi : Vec) (s : RState) : Except Err RState := do
  let x ← rUpdateList lo hi s.heap s.particles
  .ok { s with heap := x.1, particles := x.2 }

/-- The global best VALUE (what the claim says must survive updates). -/
def gbVal (s : RState) : Option Vec := s.gb_pos.map (readA s.heap)

/-- Every particle's personal-best VALUE. -/
def bestVals (s : RState) : List (Option Vec) :=
  s.particles.map (fun p => p.best.map (readA s.heap))

/-- An optional reference stays inside the heap. -/
def obB (o : Option ℕ) (n : ℕ) : Bool :=
  match o with
  | some b => decide (b < n)
  | none => true

/-- An optional reference aliases no particle's position cell. -/
def neallB (o : Option ℕ) (ps : List RParticle) : Bool :=
  match o with
  | some g => ps.all (fun q => decide (g ≠ q.pos))
  | none => true

/-- Well-formedness: every stored reference points inside the heap. -/
def wfB (s : RState) : Bool :=
  s.particles.all (fun p => decide (p.pos < s.heap.length) && obB p.best s.heap.length) &&
  obB s.gb_pos s.heap.length

/-- Separation: neither the global best nor any personal best aliases any
particle's position cell. -/
def sepB (s : RState) : Bool :=
  neallB s.gb_pos s.particles &&
  s.particles.all (fun p => neallB p.best s.particles)

/-- A concrete two-particle heap state right after initialisation. -/
def rDemo : RState :=
  { heap := [[0], [1]]
    particles :=
      [{ problem_type := some "min", pos := 0, vel := [1], best := none,
         best_score := .pinf, score := none },
       { problem_type := some "min", pos := 1, vel := [1], best := none,
         best_score := .pinf, score := none }]
    problem_type := some "min"
    gb_score := some .pinf
    gb_pos := none }

/-- A concrete total objective for the heap-model witness. -/
def rDemoF : Vec → ℚ := fun v => v.foldr (fun x acc => x * x + acc) 0

end RefModel

end PSO

namespace PSO

/-! ## Builder lemmas -/

namespace SwarmBuilder

/-- An `if`-guarded success unpacked. -/
theorem ok_ite_iff {α : Type} {c : Prop} [Decidable c] {A : α} {e : Err} {s1 : α} :
    ((if c then Except.ok A else Except.error e) = .ok s1) ↔ (c ∧ s1 = A) := by
  split <;> simp_all [eq_comm]

/-- An `if`-guarded failure unpacked. -/
theorem err_ite_iff {α : Type} {c : Prop} [Decidable c] {A : α} {e : Err} {s1 : α} :
    ((if c then Except.error e else Except.ok A) = .ok s1) ↔ (¬c ∧ s1 = A) := by
  split <;> simp_all [eq_comm]

/-- Two stacked `if`-guarded failures unpacked. -/
theorem err_err_ite_iff {α : Type} {c d : Prop} [Decidable c] [Decidable d]
    {A : α} {e1 e2 : Err} {s1 : α} :
    ((if c then Except.error e1 else if d then Except.error e2 else Except.ok A) = .ok s1) ↔
      (¬c ∧ ¬d ∧ s1 = A) := by
  split
  · simp_all
  · rw [err_ite_iff]
    simp_all

/-- The registry resolves a name exactly when it is one of the four defined
objective functions. -/
theorem fitnessRegistry_isSome_iff (rterm : ℚ → ℚ) (v : String) :
    (fitnessRegistry rterm v).isSome = true ↔
      fieldValid (.objective_function v) = true := by
  unfold fitnessRegistry fieldValid
  split_ifs <;> simp_all

/-- A builder method succeeds exactly when its argument validates, and then
performs its `applyAction` update. -/
theorem applyField_ok_iff (rterm : ℚ → ℚ) (s : Swarm) (c : CfgField) (s1 : Swarm) :
    applyField rterm s c = .ok s1 ↔ (fieldValid c = true ∧ s1 = applyAction rterm s c) := by
  cases c with
  | problem_type v =>
    rw [show applyField rterm s (.problem_type v) = with_problem_type s v from rfl,
        with_problem_type, ok_ite_iff]
    exact and_congr (by simp [fieldValid]) Iff.rfl
  | num_particles v =>
    rw [show applyField rterm s (.num_particles v) = with_num_particles s v from rfl,
        with_num_particles, err_ite_iff]
    exact and_congr (by simp [fieldValid, Nat.not_lt]) Iff.rfl
  | bounds v =>
    rw [show applyField rterm s (.bounds v) = with_bounds s v from rfl,
        with_bounds, err_err_ite_iff, ← and_assoc]
    exact and_congr (by simp [fieldValid, List.isEmpty_iff]) Iff.rfl
  | cognitive_weight v =>
    rw [show applyField rterm s (.cognitive_weight v) = with_cognitive_weight s v from rfl,
        with_cognitive_weight, err_ite_iff]
    exact and_congr (by simp [fieldValid, not_lt]) Iff.rfl
  | social_weight v =>
    rw [show applyField rterm s (.social_weight v) = with_social_weight s v from rfl,
        with_social_weight, err_ite_iff]
    exact and_congr (by simp [fieldValid, not_lt]) Iff.rfl
  | inertia_weight v =>
    rw [show applyField rterm s (.inertia_weight v) = with_inertia_weight s v from rfl,
        with_inertia_weight, err_ite_iff]
    exact and_congr (by simp [fieldValid, not_lt]) Iff.rfl
  | objective_function v =>
    rw [show applyField rterm s (.objective_function v) = with_objective_function rterm s v
          from rfl,
        with_objective_function]
    cases hreg : fitnessRegistry rterm v with
    | none =>
      have hv : ¬ fieldValid (.objective_function v) = true := by
        rw [← fitnessRegistry_isSome_iff rterm v, hreg]
        simp
      simp [hv]
    | some f =>
      have hv : fieldValid (.objective_function v) = true := by
        rw [← fitnessRegistry_isSome_iff rterm v, hreg]
        rfl
      simp only [hv, true_and, applyAction, hreg]
      constructor
      · intro hh
        injection hh with hh
        exact hh.symm
      · rintro rfl
        rfl
  | max_iterations v =>
    rw [show applyField rterm s (.max_iterations v) = with_max_iterations s v from rfl,
        with_max_iterations, err_ite_iff]
    exact and_congr (by simp only [fieldValid, decide_eq_true_eq]; omega) Iff.rfl

/-- Applying a mapping succeeds exactly when every entry validates, and then
equals the fold of the success updates. -/
theorem applyFields_ok_iff (rterm : ℚ → ℚ) (l : List CfgField) (s s1 : Swarm) :
    applyFields rterm s l = .ok s1 ↔
      ((∀ c ∈ l, fieldValid c = true) ∧ s1 = l.foldl (applyAction rterm) s) := by
  induction l generalizing s with
  | nil =>
    constructor
    · intro h
      injection h with h
      exact ⟨by simp, h.symm⟩
    · rintro ⟨-, rfl⟩
      rfl
  | cons c cs ih =>
    simp only [applyFields, List.foldl_cons, List.mem_cons]
    constructor
    · intro h
      cases hc : applyField rterm s c with
      | error e => rw [hc] at h; exact absurd h (by simp [Bind.bind, Except.bind])
      | ok s2 =>
        rw [hc] at h
        simp only [Bind.bind, Except.bind] at h
        obtain ⟨hv, hact⟩ := (applyField_ok_iff rterm s c s2).mp hc
        obtain ⟨hvs, hfold⟩ := (ih s2).mp h
        subst hact
        exact ⟨fun d hd => by rcases hd with rfl | hd; exact hv; exact hvs d hd, hfold⟩
    · rintro ⟨hv, rfl⟩
      have hc : applyField rterm s c = .ok (applyAction rterm s c) :=
        (applyField_ok_iff rterm s c _).mpr ⟨hv c (Or.inl rfl), rfl⟩
      rw [hc]
      simp only [Bind.bind, Except.bind]
      exact (ih _).mpr ⟨fun d hd => hv d (Or.inr hd), rfl⟩

/-- `build` succeeds exactly when every required property is set, and then
only re-stamps the particles' problem type. -/
theorem build_ok_iff (s s1 : Swarm) :
    build s = .ok s1 ↔
      (s.problem_type ≠ none ∧ s.num_particles ≠ none ∧ s.bounds ≠ none ∧
       s.cognitive_weight ≠ none ∧ s.social_weight ≠ none ∧ s.inertia_weight ≠ none ∧
       s.objective_function.isSome = true ∧ s.max_iterations ≠ none ∧
       s1 = restamp s) := by
  have hpt : (restamp s).problem_type = s.problem_type := rfl
  have hnp : (restamp s).num_particles = s.num_particles := rfl
  have hbd : (restamp s).bounds = s.bounds := rfl
  have hcw : (restamp s).cognitive_weight = s.cognitive_weight := rfl
  have hsw : (restamp s).social_weight = s.social_weight := rfl
  have hiw : (restamp s).inertia_weight = s.inertia_weight := rfl
  have hof : (restamp s).objective_function = s.objective_function := rfl
  have hmi : (restamp s).max_iterations = s.max_iterations := rfl
  rw [build, hpt, hnp, hbd, hcw, hsw, hiw, hof, hmi]
  split_ifs with h1 h2 h3 h4 h5 h6 h7 h8
  · exact iff_of_false (by simp) (by tauto)
  · exact iff_of_false (by simp) (by tauto)
  · exact iff_of_false (by simp) (by tauto)
  · exact iff_of_false (by simp) (by tauto)
  · exact iff_of_false (by simp) (by tauto)
  · exact iff_of_false (by simp) (by tauto)
  · refine iff_of_false (by simp) ?_
    rw [Option.isNone_iff_eq_none] at h7
    rintro ⟨-, -, -, -, -, -, h, -⟩
    rw [Option.isSome_iff_ne_none] at h
    exact h h7
  · exact iff_of_false (by simp) (by tauto)
  · constructor
    · intro h
      injection h with h
      rw [Option.isNone_iff_eq_none] at h7
      exact ⟨h1, h2, h3, h4, h5, h6, Option.isSome_iff_ne_none.mpr h7, h8, h.symm⟩
    · rintro ⟨-, -, -, -, -, -, -, -, rfl⟩
      rfl

/-- Only a `problem_type` entry changes `problem_type`. -/
theorem applyAction_problem_type (rterm : ℚ → ℚ) (s : Swarm) (c : CfgField) (h : c.key ≠ 0) :
    (applyAction rterm s c).problem_type = s.problem_type := by
  cases c <;> first | exact absurd rfl h | rfl

/-- Only a `num_particles` entry changes the particle list. -/
theorem applyAction_particles (rterm : ℚ → ℚ) (s : Swarm) (c : CfgField) (h : c.key ≠ 1) :
    (applyAction rterm s c).particles = s.particles := by
  cases c <;> first | exact absurd rfl h | rfl

/-- A fold over entries without a `problem_type` key leaves `problem_type`
unchanged. -/
theorem foldl_problem_type (rterm : ℚ → ℚ) (l : List CfgField) (s : Swarm)
    (h : ∀ c ∈ l, c.key ≠ 0) :
    (l.foldl (applyAction rterm) s).problem_type = s.problem_type := by
  induction l generalizing s with
  | nil => rfl
  | cons c cs ih =>
    rw [List.foldl_cons, ih _ (fun d hd => h d (List.mem_cons_of_mem _ hd)),
      applyAction_problem_type _ _ _ (h c (List.mem_cons_self _ _))]

/-- A fold over entries without a `num_particles` key leaves the particle
list unchanged. -/
theorem foldl_particles (rterm : ℚ → ℚ) (l : List CfgField) (s : Swarm)
    (h : ∀ c ∈ l, c.key ≠ 1) :
    (l.foldl (applyAction rterm) s).particles = s.particles := by
  induction l generalizing s with
  | nil => rfl
  | cons c cs ih =>
    rw [List.foldl_cons, ih _ (fun d hd => h d (List.mem_cons_of_mem _ hd)),
      applyAction_particles _ _ _ (h c (List.mem_cons_self _ _))]

/-- Along any valid application fold, a set `bounds` is a nonempty list
whose length is recorded in `dimensions`. -/
theorem foldl_bounds_dims (rterm : ℚ → ℚ) (l : List CfgField) (s : Swarm)
    (hv : ∀ c ∈ l, fieldValid c = true)
    (hs : ∀ bs, s.bounds = some bs → bs ≠ [] ∧ s.dimensions = some bs.length) :
    ∀ bs, (l.foldl (applyAction rterm) s).bounds = some bs →
      bs ≠ [] ∧ (l.foldl (applyAction rterm) s).dimensions = some bs.length := by
  induction l generalizing s with
  | nil => exact hs
  | cons c cs ih =>
    rw [List.foldl_cons]
    refine ih _ (fun d hd => hv d (List.mem_cons_of_mem _ hd)) ?_
    intro bs hbs
    cases c with
    | bounds v =>
      have hval := hv (.bounds v) (List.mem_cons_self _ _)
      simp only [fieldValid, Bool.and_eq_true, Bool.not_eq_true', List.isEmpty_iff] at hval
      have hv2 : v = bs := by
        simpa [applyAction] using hbs
      subst hv2
      refine ⟨by simpa using hval.2, ?_⟩
      rfl
    | problem_type v => exact hs bs hbs
    | num_particles v => exact hs bs hbs
    | cognitive_weight v => exact hs bs hbs
    | social_weight v => exact hs bs hbs
    | inertia_weight v => exact hs bs hbs
    | objective_function v => exact hs bs hbs
    | max_iterations v => exact hs bs hbs

end SwarmBuilder

/-! ## Claim theorems -/

/-- C1 (status: code_bug).  On the repo's own `test_swarm_evaluator`
scenario — a non-converged `min`/`sphere` swarm whose global best is already
at the optimum, so that `|global_best_score - optimal_score| ≤ tolerance`
holds — one `SwarmEvaluator.process` call leaves `converged = false` and
`convergence_iteration = convergence_rate = None`: the source never sets the
convergence fields, although the claim (and the repository's test) require
`converged = true`, `convergence_iteration = current_iteration` and
`convergence_rate = 100 · current_iteration / max_iterations`. -/
theorem swarmEvaluator_never_sets_convergence_fields :
    (ConvergenceCalculator.make "sphere" 2).map
        (fun c => c.check_convergence (.fin 0)) = .ok true ∧
    (swarmEvaluatorProcess fixtureSwarm).map Swarm.global_best_score =
      .ok (some (.fin 0)) ∧
    (swarmEvaluatorProcess fixtureSwarm).map Swarm.converged = .ok false ∧
    (swarmEvaluatorProcess fixtureSwarm).map Swarm.convergence_iteration = .ok none ∧
    (swarmEvaluatorProcess fixtureSwarm).map Swarm.convergence_rate = .ok none ∧
    (swarmEvaluatorProcess fixtureSwarm).map Swarm.score_precision = .ok [.fin 0] ∧
    (swarmEvaluatorProcess fixtureSwarm).map Swarm.position_precision = .ok [0] := by
  refine ⟨?_, ?_, ?_, ?_, ?_, ?_, ?_⟩ <;> decide

/-- C8 counterexample.  `with_bounds` does NOT reject a degenerate pair with
`lower = upper`: on `[(1, 1)]` it succeeds and derives the arrays, refuting
the claim that every pair must satisfy `lower < upper` strictly (the source
only raises when `bound[0] > bound[1]`). -/
theorem with_bounds_accepts_equal_pair :
    (SwarmBuilder.with_bounds Swarm.init [(1, 1)]).map
        (fun s => (s.dimensions, s.lower_bounds, s.upper_bounds)) =
      .ok (some 1, some [1], some [1]) ∧
    (SwarmBuilder.with_bounds Swarm.init [(1, 1)]).map Swarm.bounds =
      .ok (some [(1, 1)]) := by
  exact ⟨by decide, by decide⟩

/-- C8 (status: corrected).  `with_bounds` validates `lower ≤ upper`, not
`lower < upper`: it fails exactly when some pair has `lower > upper`, and on
success it sets `dimensions = len(bounds)` and derives the per-dimension
lower/upper arrays. -/
theorem with_bounds_validates_le (s : Swarm) (bounds : List (ℚ × ℚ)) :
    ((∃ b ∈ bounds, b.2 < b.1) →
      SwarmBuilder.with_bounds s bounds =
        .error (.valueError "Lower bound must be less than upper bound.")) ∧
    (∀ s1, SwarmBuilder.with_bounds s bounds = .ok s1 →
      (∀ b ∈ bounds, b.1 ≤ b.2) ∧
      s1.dimensions = some bounds.length ∧
      s1.lower_bounds = some (bounds.map (·.1)) ∧
      s1.upper_bounds = some (bounds.map (·.2)) ∧
      s1.bounds = some bounds) := by
  constructor
  · intro h
    obtain ⟨b, hb, hlt⟩ := h
    have hany : bounds.any (fun b => decide (b.2 < b.1)) = true :=
      List.any_eq_true.mpr ⟨b, hb, decide_eq_true hlt⟩
    unfold SwarmBuilder.with_bounds
    rw [if_pos hany]
  · intro s1 h
    unfold SwarmBuilder.with_bounds at h
    by_cases hany : bounds.any (fun b => decide (b.2 < b.1)) = true
    · rw [if_pos hany] at h
      exact absurd h (by simp)
    · have hle : ∀ b ∈ bounds, b.1 ≤ b.2 := by
        intro b hb
        by_contra hlt
        exact hany (List.any_eq_true.mpr ⟨b, hb, decide_eq_true (lt_of_not_le hlt)⟩)
      rw [if_neg hany] at h
      by_cases hnil : bounds = []
      · rw [if_pos hnil] at h
        exact absurd h (by simp)
      · rw [if_neg hnil] at h
        injection h with h
        subst h
        exact ⟨hle, rfl, rfl, rfl, rfl⟩

/-- C8 witness: `[(2, 1)]` is rejected, and on `[(0, 1)]` success yields
dimension 1 with the derived arrays. -/
theorem with_bounds_validates_le_witness :
    SwarmBuilder.with_bounds Swarm.init [((2 : ℚ), (1 : ℚ))] =
      .error (.valueError "Lower bound must be less than upper bound.") ∧
    ((SwarmBuilder.with_bounds Swarm.init [((0 : ℚ), (1 : ℚ))]).map
        (fun s => s.dimensions)) = .ok (some 1) := by
  constructor
  · exact (with_bounds_validates_le Swarm.init [((2 : ℚ), (1 : ℚ))]).1
      ⟨(2, 1), by decide, by decide⟩
  · decide

/-- C10 (status: confirmed).  `with_bounds []` raises (the `zip(*bounds)`
unpacking fails on the empty list), and every swarm built through the
builder has `dimensions ≥ 1`. -/
theorem built_swarm_dimensions_positive :
    (∀ s : Swarm, SwarmBuilder.with_bounds s [] =
      .error (.valueError "not enough values to unpack")) ∧
    (∀ (rterm : ℚ → ℚ) (l : List SwarmBuilder.CfgField) (s : Swarm),
      SwarmBuilder.build_from_dict rterm l = .ok s →
      ∃ d, s.dimensions = some d ∧ 1 ≤ d) := by
  constructor
  · intro s
    rfl
  · intro rterm l s h
    unfold SwarmBuilder.build_from_dict at h
    cases happ : SwarmBuilder.applyFields rterm Swarm.init l with
    | error e =>
      rw [happ] at h
      exact absurd h (by simp [Bind.bind, Except.bind])
    | ok s0 =>
      rw [happ] at h
      simp only [Bind.bind, Except.bind] at h
      obtain ⟨hval, hfold⟩ := (SwarmBuilder.applyFields_ok_iff rterm l Swarm.init s0).mp happ
      obtain ⟨-, -, hbd, -, -, -, -, -, hs⟩ := (SwarmBuilder.build_ok_iff s0 s).mp h
      cases hb : s0.bounds with
      | none => exact absurd hb hbd
      | some bs =>
        subst hfold
        obtain ⟨hne, hdim⟩ := SwarmBuilder.foldl_bounds_dims rterm l Swarm.init hval
          (fun bs hbs => by exact absurd hbs (by simp [Swarm.init])) bs hb
        refine ⟨bs.length, ?_, ?_⟩
        · rw [hs]
          exact hdim
        · exact Nat.one_le_iff_ne_zero.mpr (by simpa using hne)

/-- C10 witness: the empty-bounds rejection, and dimensions ≥ 1 for a
concretely built swarm. -/
theorem built_swarm_dimensions_positive_witness :
    SwarmBuilder.with_bounds Swarm.init [] =
      .error (.valueError "not enough values to unpack") ∧
    ∃ d, demoSwarm.dimensions = some d ∧ 1 ≤ d := by
  constructor
  · exact built_swarm_dimensions_positive.1 Swarm.init
  · exact built_swarm_dimensions_positive.2 rtermZero demoFields demoSwarm rfl

/-- C2 counterexample.  Applying `num_particles` before `problem_type` (a
legal dict order) builds a `min` swarm whose particles all carry
`best_score = -inf`, not `+inf`: the particles were constructed while
`problem_type` was unset, and `build()` re-stamps only `problem_type`, never
the seed.  This refutes "regardless of the order in which the configuration
fields were applied". -/
theorem bad_order_min_swarm_seeds_ninf :
    (SwarmBuilder.build_from_dict rtermZero badOrderFields).map
        (fun s => (s.problem_type, s.particles.map (·.best_score))) =
      .ok (some "min", [.ninf, .ninf]) := by
  decide

/-- C2 (status: corrected).  When the (unique) `problem_type` entry is
applied before the (unique) `num_particles` entry, every particle of the
built swarm carries the swarm's problem type and `best_score = +inf`
(Minimize) / `-inf` (Maximize), so any finite first score strictly improves
it. -/
theorem built_particles_seeded_when_problem_type_first
    (rterm : ℚ → ℚ) (l1 l2 l3 : List SwarmBuilder.CfgField) (pt : String) (n : ℕ) (s : Swarm)
    (h2 : ∀ c ∈ l2, c.key ≠ 0)
    (h3 : ∀ c ∈ l3, c.key ≠ 0 ∧ c.key ≠ 1)
    (hbuild : SwarmBuilder.build_from_dict rterm
      (l1 ++ .problem_type pt :: l2 ++ .num_particles n :: l3) = .ok s) :
    s.problem_type = some pt ∧
    ∀ p ∈ s.particles,
      p.problem_type = some pt ∧
      p.best_score = (if pt = "min" then FVal.pinf else FVal.ninf) ∧
      (pt = "min" → ∀ q : ℚ, FVal.lt (.fin q) p.best_score = true) ∧
      (pt = "max" → ∀ q : ℚ, FVal.lt p.best_score (.fin q) = true) := by
  unfold SwarmBuilder.build_from_dict at hbuild
  cases happ : SwarmBuilder.applyFields rterm Swarm.init
      (l1 ++ .problem_type pt :: l2 ++ .num_particles n :: l3) with
  | error e =>
    rw [happ] at hbuild
    exact absurd hbuild (by simp [Bind.bind, Except.bind])
  | ok s0 =>
    rw [happ] at hbuild
    simp only [Bind.bind, Except.bind] at hbuild
    obtain ⟨hval, hfold⟩ := (SwarmBuilder.applyFields_ok_iff rterm _ Swarm.init s0).mp happ
    obtain ⟨-, -, -, -, -, -, -, -, hs⟩ := (SwarmBuilder.build_ok_iff s0 s).mp hbuild
    rw [List.foldl_append, List.foldl_cons, List.foldl_append, List.foldl_cons] at hfold
    set s1 := l1.foldl (SwarmBuilder.applyAction rterm) Swarm.init with hs1
    set s2 := SwarmBuilder.applyAction rterm s1 (.problem_type pt) with hs2
    set s3 := l2.foldl (SwarmBuilder.applyAction rterm) s2 with hs3
    set s4 := SwarmBuilder.applyAction rterm s3 (.num_particles n) with hs4
    have hpt2 : s2.problem_type = some pt := rfl
    have hpt3 : s3.problem_type = some pt := by
      rw [hs3, SwarmBuilder.foldl_problem_type rterm l2 s2 h2, hpt2]
    have hpt4 : s4.problem_type = some pt := by
      rw [hs4, SwarmBuilder.applyAction_problem_type rterm s3 (.num_particles n)
        (by simp [SwarmBuilder.CfgField.key]), hpt3]
    have hpart4 : s4.particles = List.replicate n (Particle.init (some pt)) := by
      rw [hs4]
      show List.replicate n (Particle.init s3.problem_type) = _
      rw [hpt3]
    have hpt0 : s0.problem_type = some pt := by
      rw [hfold, SwarmBuilder.foldl_problem_type rterm l3 s4 (fun c hc => (h3 c hc).1), hpt4]
    have hpart0 : s0.particles = List.replicate n (Particle.init (some pt)) := by
      rw [hfold, SwarmBuilder.foldl_particles rterm l3 s4 (fun c hc => (h3 c hc).2), hpart4]
    have hspt : s.problem_type = some pt := by
      rw [hs]
      show s0.problem_type = some pt
      exact hpt0
    refine ⟨hspt, ?_⟩
    intro p hp
    have hppt : p = Particle.init (some pt) := by
      rw [hs] at hp
      simp only [SwarmBuilder.restamp, hpart0, hpt0, List.map_replicate] at hp
      have := List.eq_of_mem_replicate hp
      rw [this]
      show ({ Particle.init (some pt) with problem_type := some pt } : Particle) = _
      rfl
    subst hppt
    refine ⟨rfl, ?_, ?_, ?_⟩
    · show (if some pt = some "min" then FVal.pinf else FVal.ninf) = _
      simp
    · intro hmin q
      simp [Particle.init, hmin, FVal.lt]
    · intro hmax q
      have : pt ≠ "min" := by rw [hmax]; decide
      simp [Particle.init, this, FVal.lt]

/-- C2 witness: the well-ordered `demoFields` configuration yields `min`
particles seeded at `+inf`. -/
theorem built_particles_seeded_witness :
    demoSwarm.problem_type = some "min" ∧
    ∀ p ∈ demoSwarm.particles, p.best_score = FVal.pinf := by
  have hb : SwarmBuilder.build_from_dict rtermZero
      (([] : List SwarmBuilder.CfgField) ++
        .problem_type "min" :: [.max_iterations 1, .objective_function "sphere"] ++
        .num_particles 2 ::
          [.bounds [(0, 2)], .cognitive_weight (1/2), .social_weight (1/2),
           .inertia_weight (1/2)]) = .ok demoSwarm := by
    show SwarmBuilder.build_from_dict rtermZero demoFields = .ok demoSwarm
    rfl
  have h := built_particles_seeded_when_problem_type_first rtermZero
    [] [.max_iterations 1, .objective_function "sphere"]
    [.bounds [(0, 2)], .cognitive_weight (1/2), .social_weight (1/2), .inertia_weight (1/2)]
    "min" 2 demoSwarm (by decide) (by decide) hb
  refine ⟨h.1, fun p hp => ?_⟩
  have := (h.2 p hp).2.1
  simpa using this

/-- Dropping the entry with index `i` from an enumeration-from-`k` keeps the
other elements in order. -/
theorem enumFrom_filter_ne {α : Type} (l : List α) : ∀ (k i : ℕ),
    ((List.enumFrom k l).filter (fun x => x.1 ≠ i)).map (·.2) =
      if i < k then l else l.take (i - k) ++ l.drop (i - k + 1) := by
  induction l with
  | nil =>
    intro k i
    split <;> simp
  | cons a as ih =>
    intro k i
    rw [List.enumFrom_cons, List.filter_cons]
    by_cases hk : k = i
    · subst hk
      rw [if_neg (by simp), ih (k + 1) k, if_pos (Nat.lt_succ_self k),
        if_neg (lt_irrefl k), Nat.sub_self]
      rfl
    · rw [if_pos (by simp [hk]), List.map_cons, ih (k + 1) i]
      by_cases hlt : i < k
      · rw [if_pos (Nat.lt_succ_of_lt hlt), if_pos hlt]
      · rw [if_neg (by omega), if_neg hlt]
        have h1 : i - k = (i - (k + 1)) + 1 := by omega
        rw [h1]
        rfl

/-- Python indexing at a non-negative in-range index. -/
theorem pyGet_ofNat {α : Type} (l : List α) (n : ℕ) (h : n < l.length) :
    pyGet l (n : Int) = .ok (l.get ⟨n, h⟩) := by
  unfold pyGet
  rw [if_pos (Int.natCast_nonneg n), Int.toNat_natCast, List.get?_eq_get h]

/-- Python indexing at `-1` wraps to the last element. -/
theorem pyGet_neg_one {α : Type} (l : List α) (h : 1 ≤ l.length) :
    pyGet l (-1) = .ok (l.get ⟨l.length - 1, by omega⟩) := by
  unfold pyGet
  rw [if_neg (by decide)]
  have h1 : (l.length : Int) + (-1) = ((l.length - 1 : ℕ) : Int) := by omega
  rw [h1, Int.toNat_natCast, List.get?_eq_get (by omega)]
  simp

/-- What `RingTopology.assign_neighbours` returns on a valid index. -/
theorem ring_assign_neighbours_eq {α : Type} (l : List α) (i : ℕ)
    (h2 : 2 ≤ l.length) (hi : i < l.length) :
    RingTopology.assign_neighbours l i =
      .ok [l.get ⟨if i = 0 then l.length - 1 else i - 1, by split <;> omega⟩,
           l.get ⟨(i + 1) % l.length, Nat.mod_lt _ (by omega)⟩] := by
  unfold RingTopology.assign_neighbours
  have hsnd : pyGet l (((i : Int) + 1) % (l.length : Int)) =
      .ok (l.get ⟨(i + 1) % l.length, Nat.mod_lt _ (by omega)⟩) := by
    have hcast : ((i : Int) + 1) % (l.length : Int) = (((i + 1) % l.length : ℕ) : Int) := by
      push_cast
      rfl
    rw [hcast, pyGet_ofNat l _ (Nat.mod_lt _ (by omega))]
  by_cases hi0 : i = 0
  · subst hi0
    have hfst : pyGet l (((0 : ℕ) : Int) - 1) = .ok (l.get ⟨l.length - 1, by omega⟩) := by
      have hc : ((0 : ℕ) : Int) - 1 = -1 := by norm_num
      rw [hc, pyGet_neg_one l (by omega)]
    rw [hfst, hsnd]
    simp [Bind.bind, Except.bind]
  · have hfst : pyGet l ((i : Int) - 1) = .ok (l.get ⟨i - 1, by omega⟩) := by
      have hcast : (i : Int) - 1 = ((i - 1 : ℕ) : Int) := by omega
      rw [hcast, pyGet_ofNat l _ (by omega)]
    rw [hfst, hsnd]
    simp [Bind.bind, Except.bind, if_neg hi0]

/-- C4 (status: confirmed).  `GlobalTopology.assign_neighbours` returns
exactly the `N - 1` other particles in their original order;
`RingTopology.assign_neighbours` returns the predecessor (wrapping to the
last index at `i = 0`) and the successor (wrapping to `0` at the last
index); for `N = 2` both references are the one other particle. -/
theorem topology_neighbour_sets {α : Type} :
    (∀ (l : List α) (i : ℕ), i < l.length →
      GlobalTopology.assign_neighbours l i = l.take i ++ l.drop (i + 1) ∧
      (GlobalTopology.assign_neighbours l i).length = l.length - 1) ∧
    (∀ (l : List α) (i : ℕ) (h2 : 2 ≤ l.length) (hi : i < l.length),
      RingTopology.assign_neighbours l i =
        .ok [l.get ⟨if i = 0 then l.length - 1 else i - 1, by split <;> omega⟩,
             l.get ⟨(i + 1) % l.length, Nat.mod_lt _ (by omega)⟩]) ∧
    (∀ a b : α, RingTopology.assign_neighbours [a, b] 0 = .ok [b, b] ∧
                RingTopology.assign_neighbours [a, b] 1 = .ok [a, a]) := by
  refine ⟨?_, ?_, ?_⟩
  · intro l i hi
    have he : GlobalTopology.assign_neighbours l i = l.take i ++ l.drop (i + 1) := by
      unfold GlobalTopology.assign_neighbours
      rw [show l.enum = List.enumFrom 0 l from rfl, enumFrom_filter_ne l 0 i,
        if_neg (Nat.not_lt_zero i)]
      rfl
    refine ⟨he, ?_⟩
    rw [he, List.length_append, List.length_take, List.length_drop]
    omega
  · exact fun l i h2 hi => ring_assign_neighbours_eq l i h2 hi
  · intro a b
    constructor
    · have h := ring_assign_neighbours_eq [a, b] 0 (by simp) (by simp)
      rw [h]
      simp
    · have h := ring_assign_neighbours_eq [a, b] 1 (by simp) (by simp)
      rw [h]
      simp

/-- C4 witness at a concrete list. -/
theorem topology_neighbour_sets_witness :
    GlobalTopology.assign_neighbours [10, 20, 30, 40] 2 = [10, 20, 40] ∧
    RingTopology.assign_neighbours [10, 20, 30, 40] 0 = .ok [40, 20] ∧
    RingTopology.assign_neighbours [10, 20] 1 = .ok [10, 10] := by
  refine ⟨?_, ?_, ?_⟩
  · have h := (topology_neighbour_sets.1 [10, 20, 30, 40] 2 (by decide)).1
    rw [h]
    rfl
  · have h := topology_neighbour_sets.2.1 [10, 20, 30, 40] 0 (by decide) (by decide)
    rw [h]
    rfl
  · exact (topology_neighbour_sets.2.2 10 20).2

/-- A successful `InitialisePosition` leaves the one-shot flag set. -/
theorem initialisePosition_flag (s : Swarm) (r : Rng) (s1 : Swarm) (r1 : Rng)
    (h : initialisePosition s r = .ok (s1, r1)) : s1.position_initialised = true := by
  unfold initialisePosition at h
  split at h
  · obtain ⟨hs, -⟩ : s = s1 ∧ r = r1 := by simpa using h
    subst hs
    assumption
  · split at h
    · split at h
      · obtain ⟨hs, -⟩ : _ ∧ _ := by simpa using h
        rw [← hs]
      · exact absurd h (by simp)
    · exact absurd h (by simp)

/-- A successful `InitialiseVelocity` leaves the one-shot flag set. -/
theorem initialiseVelocity_flag (s : Swarm) (r : Rng) (s1 : Swarm) (r1 : Rng)
    (h : initialiseVelocity s r = .ok (s1, r1)) : s1.velocity_initialised = true := by
  unfold initialiseVelocity at h
  split at h
  · obtain ⟨hs, -⟩ : s = s1 ∧ r = r1 := by simpa using h
    subst hs
    assumption
  · split at h
    · obtain ⟨hs, -⟩ : _ ∧ _ := by simpa using h
      rw [← hs]
    · exact absurd h (by simp)

/-- C6 (status: confirmed).  A second call to any of the initialisation
stages is a no-op: the state (positions / velocities / neighbours included)
and the consumed random stream are exactly those after the first call, and
the one-shot flag stays `true`. -/
theorem initialisation_stages_idempotent :
    (∀ (s : Swarm) (r : Rng) (s1 : Swarm) (r1 : Rng),
      initialisePosition s r = .ok (s1, r1) →
      s1.position_initialised = true ∧ initialisePosition s1 r1 = .ok (s1, r1)) ∧
    (∀ (s : Swarm) (r : Rng) (s1 : Swarm) (r1 : Rng),
      initialiseVelocity s r = .ok (s1, r1) →
      s1.velocity_initialised = true ∧ initialiseVelocity s1 r1 = .ok (s1, r1)) ∧
    (∀ (k : TopologyKind) (s : Swarm),
      (initialiseTopology k s).topology_initialised = true ∧
      initialiseTopology k (initialiseTopology k s) = initialiseTopology k s) := by
  refine ⟨?_, ?_, ?_⟩
  · intro s r s1 r1 h
    have hf := initialisePosition_flag s r s1 r1 h
    refine ⟨hf, ?_⟩
    unfold initialisePosition
    rw [hf]
    rfl
  · intro s r s1 r1 h
    have hf := initialiseVelocity_flag s r s1 r1 h
    refine ⟨hf, ?_⟩
    unfold initialiseVelocity
    rw [hf]
    rfl
  · intro k s
    have hf : (initialiseTopology k s).topology_initialised = true := by
      unfold initialiseTopology
      split
      · assumption
      · rfl
    refine ⟨hf, ?_⟩
    conv_lhs => rw [initialiseTopology]
    rw [hf]
    rfl

/-- C6 witness: a freshly built swarm, initialised once, is untouched by
the second initialisation calls. -/
theorem initialisation_stages_idempotent_witness :
    (∃ x : Swarm × Rng, initialisePosition demoSwarm rngHalf = .ok x ∧
      x.1.position_initialised = true ∧ initialisePosition x.1 x.2 = .ok x) ∧
    (∃ x : Swarm × Rng, initialiseVelocity demoSwarm rngHalf = .ok x ∧
      x.1.velocity_initialised = true ∧ initialiseVelocity x.1 x.2 = .ok x) ∧
    ((initialiseTopology .globalT demoSwarm).topology_initialised = true ∧
      initialiseTopology .globalT (initialiseTopology .globalT demoSwarm) =
        initialiseTopology .globalT demoSwarm) := by
  refine ⟨?_, ?_, initialisation_stages_idempotent.2.2 .globalT demoSwarm⟩
  · exact ⟨(initialisePosition demoSwarm rngHalf).toOption.getD (demoSwarm, rngHalf), rfl,
      initialisation_stages_idempotent.1 demoSwarm rngHalf _ _ rfl⟩
  · exact ⟨(initialiseVelocity demoSwarm rngHalf).toOption.getD (demoSwarm, rngHalf), rfl,
      initialisation_stages_idempotent.2.1 demoSwarm rngHalf _ _ rfl⟩

/-- `lt` on extended floats is irreflexive. -/
theorem FVal.lt_irrefl (a : FVal) : FVal.lt a a = false := by
  cases a <;> simp [FVal.lt]

/-- `lt` implies `le` on extended floats. -/
theorem FVal.le_of_lt {a b : FVal} (h : FVal.lt a b = true) : FVal.le a b = true := by
  simp [FVal.le, h]

/-- `le` is reflexive on extended floats. -/
theorem FVal.le_refl (a : FVal) : FVal.le a a = true := by
  simp [FVal.le]

/-- `le` is transitive on extended floats. -/
theorem FVal.le_trans : ∀ {a b c : FVal},
    FVal.le a b = true → FVal.le b c = true → FVal.le a c = true := by
  intro a b c h1 h2
  cases a <;> cases b <;> cases c <;> simp_all [FVal.le, FVal.lt]
  rcases h1 with h1 | rfl
  · rcases h2 with h2 | rfl
    · exact Or.inl (lt_trans h1 h2)
    · exact Or.inl h1
  · exact h2

/-- One `Particle.evaluate` call either leaves the personal best alone or
strictly improves it in the direction of the configured problem type. -/
theorem evaluate_best_step (f : Vec → Except Err ℚ) (p p1 : Particle)
    (h : Particle.evaluate f p = .ok p1) :
    p1.problem_type = p.problem_type ∧
    ((p1.best_score = p.best_score ∧ p1.best_position = p.best_position) ∨
     (FVal.lt p.best_score p1.best_score = true ∧ p.problem_type = some "max") ∨
     (FVal.lt p1.best_score p.best_score = true ∧ p.problem_type = some "min")) := by
  unfold Particle.evaluate at h
  cases hpos : p.position with
  | none =>
    simp only [hpos] at h
    exact absurd h (by simp)
  | some pos =>
    simp only [hpos] at h
    cases hf : f pos with
    | error e =>
      rw [hf] at h
      exact absurd h (by simp [Bind.bind, Except.bind])
    | ok q =>
      rw [hf] at h
      simp only [Bind.bind, Except.bind] at h
      split_ifs at h with h1 h2
      · injection h with h
        subst h
        exact ⟨rfl, Or.inr (Or.inl ⟨h1.2, h1.1⟩)⟩
      · injection h with h
        subst h
        exact ⟨rfl, Or.inr (Or.inr ⟨h2.2, h2.1⟩)⟩
      · injection h with h
        subst h
        exact ⟨rfl, Or.inl ⟨rfl, rfl⟩⟩

/-- C5 (status: confirmed).  Across any sequence of `Particle.evaluate`
calls the personal best never regresses under the configured ordering
(non-increasing for `min`, non-decreasing for `max`), and a score merely
EQUAL to the current best changes neither `best_score` nor
`best_position`. -/
theorem particle_best_monotone_and_strict :
    (∀ (fs : List (Vec → Except Err ℚ)) (p p1 : Particle),
      evalSeq fs p = .ok p1 →
      (p.problem_type = some "min" → FVal.le p1.best_score p.best_score = true) ∧
      (p.problem_type = some "max" → FVal.le p.best_score p1.best_score = true)) ∧
    (∀ (f : Vec → Except Err ℚ) (p p1 : Particle) (pos : Vec) (q : ℚ),
      p.position = some pos → f pos = .ok q → FVal.fin q = p.best_score →
      Particle.evaluate f p = .ok p1 →
      p1.best_score = p.best_score ∧ p1.best_position = p.best_position) := by
  constructor
  · intro fs
    induction fs with
    | nil =>
      intro p p1 h
      obtain rfl : p = p1 := by simpa [evalSeq, pure, Except.pure] using h
      exact ⟨fun _ => FVal.le_refl _, fun _ => FVal.le_refl _⟩
    | cons f fs ih =>
      intro p p1 h
      rw [evalSeq, List.foldlM_cons] at h
      cases hstep : Particle.evaluate f p with
      | error e =>
        rw [hstep] at h
        exact absurd h (by simp [Bind.bind, Except.bind])
      | ok p2 =>
        rw [hstep] at h
        simp only [Bind.bind, Except.bind] at h
        obtain ⟨hpt2, hbest2⟩ := evaluate_best_step f p p2 hstep
        obtain ⟨ihmin, ihmax⟩ := ih p2 p1 h
        constructor
        · intro hmin
          have h21 : FVal.le p1.best_score p2.best_score = true := ihmin (hpt2.trans hmin)
          rcases hbest2 with ⟨hb, -⟩ | ⟨-, hmax⟩ | ⟨hlt, -⟩
          · rw [hb] at h21
            exact h21
          · rw [hmin] at hmax
            exact absurd (Option.some.inj hmax) (by decide)
          · exact FVal.le_trans h21 (FVal.le_of_lt hlt)
        · intro hmax
          have h21 : FVal.le p2.best_score p1.best_score = true := ihmax (hpt2.trans hmax)
          rcases hbest2 with ⟨hb, -⟩ | ⟨hlt, -⟩ | ⟨-, hmin⟩
          · rw [hb] at h21
            exact h21
          · exact FVal.le_trans (FVal.le_of_lt hlt) h21
          · rw [hmax] at hmin
            exact absurd (Option.some.inj hmin) (by decide)
  · intro f p p1 pos q hpos hf heq h
    unfold Particle.evaluate at h
    simp only [hpos] at h
    rw [hf] at h
    simp only [Bind.bind, Except.bind] at h
    rw [if_neg (by rw [← heq, FVal.lt_irrefl]; simp),
        if_neg (by rw [← heq, FVal.lt_irrefl]; simp)] at h
    injection h with h
    subst h
    exact ⟨rfl, rfl⟩

/-- C5 witness: a `min` particle evaluated twice, the second time at a
worse position; the best is kept, and a tie leaves the best untouched. -/
theorem particle_best_monotone_witness :
    (∃ p1, evalSeq [sphere, sphere] fixtureParticle = .ok p1 ∧
      FVal.le p1.best_score fixtureParticle.best_score = true) ∧
    (∃ p1, Particle.evaluate (fun _ => .ok 2) fixtureParticle = .ok p1 ∧
      p1.best_score = fixtureParticle.best_score ∧
      p1.best_position = fixtureParticle.best_position) := by
  constructor
  · refine ⟨(evalSeq [sphere, sphere] fixtureParticle).toOption.getD fixtureParticle, rfl, ?_⟩
    exact ((particle_best_monotone_and_strict.1 [sphere, sphere] fixtureParticle _ rfl).1) rfl
  · refine ⟨(Particle.evaluate (fun _ => .ok 2) fixtureParticle).toOption.getD fixtureParticle,
      rfl, ?_⟩
    exact particle_best_monotone_and_strict.2 (fun _ => .ok 2) fixtureParticle _ [1, 1] 2
      rfl rfl (by decide) rfl

/-- Clipping into well-ordered bounds lands inside them. -/
theorem withinB_clip : ∀ (v lo hi : Vec), leB lo hi = true →
    v.length = lo.length → v.length = hi.length →
    withinB lo hi (zip3With (fun x l h => min (max x l) h) v lo hi) = true := by
  intro v
  induction v with
  | nil =>
    intro lo hi hle h1 h2
    obtain rfl : lo = [] := List.length_eq_zero.mp h1.symm
    obtain rfl : hi = [] := List.length_eq_zero.mp h2.symm
    rfl
  | cons x xs ih =>
    intro lo hi hle h1 h2
    cases lo with
    | nil => simp at h1
    | cons l ls =>
      cases hi with
      | nil => simp at h2
      | cons h hs =>
        simp only [leB, Bool.and_eq_true, decide_eq_true_eq] at hle
        simp only [List.length_cons, Nat.succ.injEq] at h1 h2
        simp only [zip3With, withinB, Bool.and_eq_true, decide_eq_true_eq]
        refine ⟨⟨le_min (le_max_right x l) hle.1, min_le_right _ h⟩, ?_⟩
        exact ih ls hs hle.2 h1 h2

/-- Every element of a successful `mapM` image comes from applying the
function to some element of the source list. -/
theorem mapM_ok_forall {α β : Type} (g : α → Except Err β) :
    ∀ (l : List α) (l1 : List β), l.mapM g = .ok l1 → ∀ b ∈ l1, ∃ a ∈ l, g a = .ok b := by
  intro l
  induction l with
  | nil =>
    intro l1 h b hb
    rw [List.mapM_nil] at h
    obtain rfl : ([] : List β) = l1 := by simpa [pure, Except.pure] using h
    simp at hb
  | cons a as ih =>
    intro l1 h b hb
    rw [List.mapM_cons] at h
    cases hga : g a with
    | error e =>
      rw [hga] at h
      exact absurd h (by simp [Bind.bind, Except.bind])
    | ok b0 =>
      rw [hga] at h
      simp only [Bind.bind, Except.bind] at h
      cases hmm : as.mapM g with
      | error e =>
        rw [hmm] at h
        exact absurd h (by simp)
      | ok bs =>
        rw [hmm] at h
        obtain rfl : b0 :: bs = l1 := by simpa [pure, Except.pure] using h
        rcases List.mem_cons.mp hb with rfl | hbs
        · exact ⟨a, List.mem_cons_self _ _, hga⟩
        · obtain ⟨a1, ha1, hg1⟩ := ih bs hmm b hbs
          exact ⟨a1, List.mem_cons_of_mem _ ha1, hg1⟩

/-- `bind` on a successful `Except` computation. -/
theorem bindE_ok {α β : Type} (a : α) (f : α → Except Err β) :
    (Except.ok a >>= f) = f a := rfl

/-- `bind` on a failed `Except` computation. -/
theorem bindE_err {α β : Type} (e : Err) (f : α → Except Err β) :
    ((Except.error e : Except Err α) >>= f) = Except.error e := rfl

/-- `optToExcept` on a present value. -/
theorem optToExcept_some {α : Type} (v : α) (e : Err) :
    optToExcept (some v) e = .ok v := rfl

/-- `optToExcept` on `None`. -/
theorem optToExcept_none {α : Type} (e : Err) :
    optToExcept (none : Option α) e = .error e := rfl

/-- Inverting a successful numpy addition. -/
theorem vAdd_ok_iff {a b w : Vec} :
    vAdd a b = .ok w ↔ (a.length = b.length ∧ w = List.zipWith (· + ·) a b) := by
  unfold vAdd
  split <;> simp_all [eq_comm]

/-- Inverting a successful numpy subtraction. -/
theorem vSub_ok_iff {a b w : Vec} :
    vSub a b = .ok w ↔ (a.length = b.length ∧ w = List.zipWith (· - ·) a b) := by
  unfold vSub
  split <;> simp_all [eq_comm]

/-- Inverting a successful numpy product. -/
theorem vMul_ok_iff {a b w : Vec} :
    vMul a b = .ok w ↔ (a.length = b.length ∧ w = List.zipWith (· * ·) a b) := by
  unfold vMul
  split <;> simp_all [eq_comm]

/-- Inverting a successful `np.clip`. -/
theorem npClip_ok_iff {v lo hi w : Vec} :
    npClip v lo hi = .ok w ↔
      (v.length = lo.length ∧ v.length = hi.length ∧
       w = zip3With (fun x l h => min (max x l) h) v lo hi) := by
  unfold npClip
  split
  case _ hc =>
    constructor
    · intro h
      injection h with h
      exact ⟨hc.1, hc.2, h.symm⟩
    · rintro ⟨-, -, rfl⟩
      rfl
  case _ hc =>
    constructor
    · intro h
      exact absurd h (by simp)
    · rintro ⟨h1, h2, -⟩
      exact absurd ⟨h1, h2⟩ hc

/-- A successful `UpdatePosition` step puts the particle's position inside
the bounds. -/
theorem updatePositionStep_within (lo hi : Vec) (hle : leB lo hi = true)
    (p p1 : Particle) (h : updatePositionStep lo hi p = .ok p1) :
    ∃ w, p1.position = some w ∧ withinB lo hi w = true := by
  unfold updatePositionStep at h
  cases hpos : p.position with
  | none =>
    rw [hpos, optToExcept_none, bindE_err] at h
    exact absurd h (by simp)
  | some pos =>
    rw [hpos, optToExcept_some, bindE_ok] at h
    cases hvel : p.velocity with
    | none =>
      rw [hvel, optToExcept_none, bindE_err] at h
      exact absurd h (by simp)
    | some vel =>
      rw [hvel, optToExcept_some, bindE_ok] at h
      cases hadd : vAdd pos vel with
      | error e =>
        rw [hadd, bindE_err] at h
        exact absurd h (by simp)
      | ok pos1 =>
        rw [hadd, bindE_ok] at h
        cases hclip : npClip pos1 lo hi with
        | error e =>
          rw [hclip, bindE_err] at h
          exact absurd h (by simp)
        | ok pos2 =>
          rw [hclip, bindE_ok] at h
          injection h with h
          subst h
          obtain ⟨h1, h2, rfl⟩ := npClip_ok_iff.mp hclip
          exact ⟨_, rfl, withinB_clip _ lo hi hle h1 h2⟩

/-- A successful `UpdateVelocity` step touches only index `i`, where it
stores a velocity clipped into the bounds. -/
theorem updateVelocityStep_spec (pt : Option String) (lo hi : Vec) (d : ℕ) (cw sw iw : ℚ)
    (hle : leB lo hi = true) (ps : List Particle) (i : ℕ) (r : Rng)
    (ps1 : List Particle) (r1 : Rng)
    (h : updateVelocityStep pt lo hi d cw sw iw ps i r = .ok (ps1, r1)) :
    ps1.length = ps.length ∧
    (∀ j, j ≠ i → ps1.get? j = ps.get? j) ∧
    (i < ps.length →
      ∃ p v, ps1.get? i = some p ∧ p.velocity = some v ∧ withinB lo hi v = true) := by
  unfold updateVelocityStep at h
  cases hget : ps.get? i with
  | none =>
    simp only [hget] at h
    obtain ⟨rfl, -⟩ : ps = ps1 ∧ r = r1 := by simpa using h
    refine ⟨rfl, fun j _ => rfl, fun hi2 => ?_⟩
    exact absurd hi2 (not_lt.mpr (List.get?_eq_none.mp hget))
  | some p =>
    simp only [hget] at h
    cases hnb : selectNeighbourBest pt ps p.neighbours with
    | error e =>
      rw [hnb, bindE_err] at h
      exact absurd h (by simp)
    | ok nb =>
      rw [hnb, bindE_ok] at h
      cases hnbp : nb.best_position with
      | none =>
        rw [hnbp, optToExcept_none, bindE_err] at h
        exact absurd h (by simp)
      | some nbp =>
        rw [hnbp, optToExcept_some, bindE_ok] at h
        cases hpos : p.position with
        | none =>
          rw [hpos, optToExcept_none, bindE_err] at h
          exact absurd h (by simp)
        | some pos =>
          rw [hpos, optToExcept_some, bindE_ok] at h
          cases hbp : p.best_position with
          | none =>
            rw [hbp, optToExcept_none, bindE_err] at h
            exact absurd h (by simp)
          | some bp =>
            rw [hbp, optToExcept_some, bindE_ok] at h
            cases hvel : p.velocity with
            | none =>
              rw [hvel, optToExcept_none, bindE_err] at h
              exact absurd h (by simp)
            | some vel =>
              rw [hvel, optToExcept_some, bindE_ok] at h
              cases hsub1 : vSub bp pos with
              | error e =>
                rw [hsub1, bindE_err] at h
                exact absurd h (by simp)
              | ok diff1 =>
                rw [hsub1, bindE_ok] at h
                cases hmul1 : vMul (r.draws d).1 diff1 with
                | error e =>
                  rw [hmul1, bindE_err] at h
                  exact absurd h (by simp)
                | ok c1 =>
                  rw [hmul1, bindE_ok] at h
                  cases hsub2 : vSub nbp pos with
                  | error e =>
                    rw [hsub2, bindE_err] at h
                    exact absurd h (by simp)
                  | ok diff2 =>
                    rw [hsub2, bindE_ok] at h
                    cases hmul2 : vMul ((r.draws d).2.draws d).1 diff2 with
                    | error e =>
                      rw [hmul2, bindE_err] at h
                      exact absurd h (by simp)
                    | ok c2 =>
                      rw [hmul2, bindE_ok] at h
                      cases hadd1 : vAdd (vel.map (fun x => iw * x)) (c1.map (fun x => cw * x)) with
                      | error e =>
                        rw [hadd1, bindE_err] at h
                        exact absurd h (by simp)
                      | ok v1 =>
                        rw [hadd1, bindE_ok] at h
                        cases hadd2 : vAdd v1 (c2.map (fun x => sw * x)) with
                        | error e =>
                          rw [hadd2, bindE_err] at h
                          exact absurd h (by simp)
                        | ok v2 =>
                          rw [hadd2, bindE_ok] at h
                          cases hclip : npClip v2 lo hi with
                          | error e =>
                            rw [hclip, bindE_err] at h
                            exact absurd h (by simp)
                          | ok v3 =>
                            rw [hclip, bindE_ok] at h
                            obtain ⟨hps, -⟩ : _ ∧ _ := by
                              simpa using h
                            obtain ⟨hl1, hl2, rfl⟩ := npClip_ok_iff.mp hclip
                            subst hps
                            refine ⟨List.length_set _ _ _, ?_, ?_⟩
                            · intro j hj
                              exact List.get?_set_ne _ _ hj.symm
                            · intro hilen
                              refine ⟨{ p with position := some pos, best_position := some bp, velocity := some (zip3With (fun x l h => min (max x l) h) v2 lo hi) }, zip3With (fun x l h => min (max x l) h) v2 lo hi, ?_, rfl, withinB_clip _ lo hi hle hl1 hl2⟩
                              rw [List.get?_set_eq, hget]
                              rfl

/-- The `UpdateVelocity` loop over a duplicate-free index list: lengths are
preserved, untouched indices keep their particle, and every processed
in-range index holds a clipped velocity afterwards. -/
theorem updVelLoop_spec (pt : Option String) (lo hi : Vec) (d : ℕ) (cw sw iw : ℚ)
    (hle : leB lo hi = true) :
    ∀ (idxs : List ℕ) (ps : List Particle) (r : Rng) (ps1 : List Particle) (r1 : Rng),
    updateVelocityLoop pt lo hi d cw sw iw idxs ps r = .ok (ps1, r1) →
    idxs.Nodup →
    ps1.length = ps.length ∧
    (∀ j, j ∉ idxs → ps1.get? j = ps.get? j) ∧
    (∀ i ∈ idxs, i < ps.length →
      ∃ p v, ps1.get? i = some p ∧ p.velocity = some v ∧ withinB lo hi v = true) := by
  intro idxs
  induction idxs with
  | nil =>
    intro ps r ps1 r1 h hnd
    obtain ⟨rfl, -⟩ : ps = ps1 ∧ r = r1 := by simpa [updateVelocityLoop] using h
    exact ⟨rfl, fun j _ => rfl, by simp⟩
  | cons i is ih =>
    intro ps r ps1 r1 h hnd
    unfold updateVelocityLoop at h
    cases hstep : updateVelocityStep pt lo hi d cw sw iw ps i r with
    | error e =>
      rw [hstep, bindE_err] at h
      exact absurd h (by simp)
    | ok pr =>
      obtain ⟨ps2, r2⟩ := pr
      rw [hstep, bindE_ok] at h
      obtain ⟨hlen2, hframe2, hset2⟩ :=
        updateVelocityStep_spec pt lo hi d cw sw iw hle ps i r ps2 r2 hstep
      obtain ⟨hlen1, hframe1, hset1⟩ := ih ps2 r2 ps1 r1 h (List.nodup_cons.mp hnd).2
      refine ⟨hlen1.trans hlen2, ?_, ?_⟩
      · intro j hj
        rw [hframe1 j (fun hmem => hj (List.mem_cons_of_mem _ hmem)),
          hframe2 j (fun hji => hj (hji ▸ List.mem_cons_self _ _))]
      · intro k hk hklen
        rcases List.mem_cons.mp hk with rfl | hkis
        · have hni : k ∉ is := (List.nodup_cons.mp hnd).1
          obtain ⟨p, v, hgi, hv, hw⟩ := hset2 hklen
          exact ⟨p, v, (hframe1 k hni).trans hgi, hv, hw⟩
        · exact hset1 k hkis (by rw [hlen2]; exact hklen)

/-- C3 (status: confirmed).  For a swarm whose derived bound arrays are
well-ordered, a successful `UpdateVelocity.process` leaves every particle's
velocity inside `[lower_bounds, upper_bounds]` elementwise (the new
velocity is clipped into the position bounds, not into `[-1, 1]`), and a
successful `UpdatePosition.process` leaves every particle's position inside
the same bounds. -/
theorem update_stages_clip_into_bounds (s : Swarm) (lo hi : Vec)
    (hlo : s.lower_bounds = some lo) (hhi : s.upper_bounds = some hi)
    (hle : leB lo hi = true) :
    (∀ (r : Rng) (s1 : Swarm) (r1 : Rng), updateVelocity s r = .ok (s1, r1) →
      ∀ p ∈ s1.particles, ∃ v, p.velocity = some v ∧ withinB lo hi v = true) ∧
    (∀ s1, updatePosition s = .ok s1 →
      ∀ p ∈ s1.particles, ∃ w, p.position = some w ∧ withinB lo hi w = true) := by
  constructor
  · intro r s1 r1 h p hp
    unfold updateVelocity at h
    cases hd : s.dimensions with
    | none =>
      simp only [hlo, hhi, hd] at h
      exact absurd h (by simp)
    | some d =>
      cases hcw : s.cognitive_weight with
      | none =>
        simp only [hlo, hhi, hd, hcw] at h
        exact absurd h (by simp)
      | some cw =>
        cases hsw : s.social_weight with
        | none =>
          simp only [hlo, hhi, hd, hcw, hsw] at h
          exact absurd h (by simp)
        | some sw =>
          cases hiw : s.inertia_weight with
          | none =>
            simp only [hlo, hhi, hd, hcw, hsw, hiw] at h
            exact absurd h (by simp)
          | some iw =>
            simp only [hlo, hhi, hd, hcw, hsw, hiw] at h
            cases hloop : updateVelocityLoop s.problem_type lo hi d cw sw iw
                (List.range s.particles.length) s.particles r with
            | error e =>
              rw [hloop, bindE_err] at h
              exact absurd h (by simp)
            | ok pr =>
              obtain ⟨ps2, r2⟩ := pr
              rw [hloop, bindE_ok] at h
              obtain ⟨hs1, -⟩ : _ ∧ r2 = r1 := by simpa using h
              obtain ⟨hlen, -, hset⟩ := updVelLoop_spec s.problem_type lo hi d cw sw iw hle
                (List.range s.particles.length) s.particles r ps2 r2 hloop
                (List.nodup_range _)
              have hp2 : p ∈ ps2 := by
                rw [← hs1] at hp
                exact hp
              obtain ⟨n, hn⟩ := List.mem_iff_get?.mp hp2
              have hnlt : n < ps2.length := (List.get?_eq_some.mp hn).1
              have hnlt2 : n < s.particles.length := by
                rw [← hlen]
                exact hnlt
              obtain ⟨p3, v, hg, hv, hw⟩ :=
                hset n (List.mem_range.mpr hnlt2) hnlt2
              have : p3 = p := by
                rw [hn] at hg
                exact (Option.some.inj hg).symm
              subst this
              exact ⟨v, hv, hw⟩
  · intro s1 h p hp
    unfold updatePosition at h
    simp only [hlo, hhi] at h
    cases hmap : s.particles.mapM (updatePositionStep lo hi) with
    | error e =>
      rw [hmap, bindE_err] at h
      exact absurd h (by simp)
    | ok ps2 =>
      rw [hmap, bindE_ok] at h
      obtain hs1 : _ = s1 := by simpa using h
      have hp2 : p ∈ ps2 := by
        rw [← hs1] at hp
        exact hp
      obtain ⟨a, -, ha⟩ := mapM_ok_forall (updatePositionStep lo hi) s.particles ps2 hmap p hp2
      exact updatePositionStep_within lo hi hle a p ha

/-- C3 witness: both update stages on a concrete evaluated swarm. -/
theorem update_stages_clip_witness :
    (∃ x : Swarm × Rng, updateVelocity fixtureSwarm rngHalf = .ok x ∧
      ∀ p ∈ x.1.particles, ∃ v, p.velocity = some v ∧
        withinB [-5, -5] [5, 5] v = true) ∧
    (∃ s1, updatePosition fixtureSwarm = .ok s1 ∧
      ∀ p ∈ s1.particles, ∃ w, p.position = some w ∧
        withinB [-5, -5] [5, 5] w = true) := by
  constructor
  · exact ⟨(updateVelocity fixtureSwarm rngHalf).toOption.getD (Swarm.init, rngHalf), rfl,
      (update_stages_clip_into_bounds fixtureSwarm [-5, -5] [5, 5] rfl rfl
        (by decide)).1 rngHalf _ _ rfl⟩
  · exact ⟨(updatePosition fixtureSwarm).toOption.getD Swarm.init, rfl,
      (update_stages_clip_into_bounds fixtureSwarm [-5, -5] [5, 5] rfl rfl
        (by decide)).2 _ rfl⟩

namespace RefModel

/-- Reading an extended heap below the old length. -/
theorem readA_append (h : Heap) (ext : Heap) (i : ℕ) (hi : i < h.length) :
    readA (h ++ ext) i = readA h i := by
  unfold readA
  rw [List.get?_append hi]

/-- Reading past a write at a different cell. -/
theorem readA_set_ne (h : Heap) (j : ℕ) (v : Vec) (i : ℕ) (hij : j ≠ i) :
    readA (h.set j v) i = readA h i := by
  unfold readA
  rw [List.get?_set_ne _ _ hij]

/-- `obB` unpacked. -/
theorem obB_iff (o : Option ℕ) (n : ℕ) : obB o n = true ↔ ∀ b, o = some b → b < n := by
  cases o <;> simp [obB]

/-- `neallB` unpacked. -/
theorem neallB_iff (o : Option ℕ) (ps : List RParticle) :
    neallB o ps = true ↔ ∀ g, o = some g → ∀ q ∈ ps, g ≠ q.pos := by
  cases o <;> simp [neallB]

/-- `wfB` unpacked. -/
theorem wfB_iff (s : RState) : wfB s = true ↔
    ((∀ p ∈ s.particles, p.pos < s.heap.length ∧ ∀ b, p.best = some b → b < s.heap.length) ∧
     (∀ g, s.gb_pos = some g → g < s.heap.length)) := by
  unfold wfB
  simp only [Bool.and_eq_true, List.all_eq_true, Bool.and_eq_true, decide_eq_true_eq, obB_iff]

/-- `sepB` unpacked. -/
theorem sepB_iff (s : RState) : sepB s = true ↔
    ((∀ g, s.gb_pos = some g → ∀ q ∈ s.particles, g ≠ q.pos) ∧
     (∀ p ∈ s.particles, ∀ b, p.best = some b → ∀ q ∈ s.particles, b ≠ q.pos)) := by
  unfold sepB
  simp only [Bool.and_eq_true, List.all_eq_true, neallB_iff]

/-- A `Forall₂` image member has a related source member. -/
theorem forall2_mem_right {R : RParticle → RParticle → Prop} :
    ∀ {ps ps1 : List RParticle}, List.Forall₂ R ps ps1 → ∀ q1 ∈ ps1, ∃ q ∈ ps, R q q1 := by
  intro ps ps1 hf
  induction hf with
  | nil => simp
  | cons hR htail ih =>
    intro q1 hq1
    rcases List.mem_cons.mp hq1 with rfl | hmem
    · exact ⟨_, List.mem_cons_self _ _, hR⟩
    · obtain ⟨q, hq, hr⟩ := ih q1 hmem
      exact ⟨q, List.mem_cons_of_mem _ hq, hr⟩

/-- What one heap-model evaluation does to the references. -/
theorem rEvaluate_spec (f : Vec → ℚ) (h : Heap) (p : RParticle) :
    (∃ ext, (rEvaluate f h p).1 = h ++ ext) ∧
    (rEvaluate f h p).2.pos = p.pos ∧
    ((rEvaluate f h p).2.best = p.best ∨
      ((rEvaluate f h p).2.best = some h.length ∧ h.length < (rEvaluate f h p).1.length)) := by
  unfold rEvaluate
  split_ifs
  · exact ⟨⟨[readA h p.pos], rfl⟩, rfl, Or.inr ⟨rfl, by simp⟩⟩
  · exact ⟨⟨[readA h p.pos], rfl⟩, rfl, Or.inr ⟨rfl, by simp⟩⟩
  · exact ⟨⟨[], by simp⟩, rfl, Or.inl rfl⟩

/-- What the heap-model evaluation loop does to the references. -/
theorem rEvalList_spec (f : Vec → ℚ) : ∀ (ps : List RParticle) (h : Heap),
    (∃ ext, (rEvalList f h ps).1 = h ++ ext) ∧
    List.Forall₂ (fun p p1 =>
        p1.pos = p.pos ∧
        (p1.best = p.best ∨
          ∃ b, p1.best = some b ∧ h.length ≤ b ∧ b < (rEvalList f h ps).1.length))
      ps (rEvalList f h ps).2 := by
  intro ps
  induction ps with
  | nil => exact fun h => ⟨⟨[], by simp [rEvalList]⟩, by simp [rEvalList]⟩
  | cons p ps ih =>
    intro h
    obtain ⟨⟨ext1, hext1⟩, hpos1, hbest1⟩ := rEvaluate_spec f h p
    obtain ⟨⟨ext2, hext2⟩, hf2⟩ := ih (rEvaluate f h p).1
    constructor
    · refine ⟨ext1 ++ ext2, ?_⟩
      show (rEvalList f (rEvaluate f h p).1 ps).1 = _
      rw [hext2, hext1, List.append_assoc]
    · show List.Forall₂ _ (p :: ps) ((rEvaluate f h p).2 :: (rEvalList f (rEvaluate f h p).1 ps).2)
      have hlen1 : h.length ≤ (rEvaluate f h p).1.length := by
        rw [hext1]
        simp
      have hlenfin : (rEvaluate f h p).1.length ≤ (rEvalList f (rEvaluate f h p).1 ps).1.length := by
        rw [hext2]
        simp
      refine List.Forall₂.cons ⟨hpos1, ?_⟩ ?_
      · rcases hbest1 with hb | ⟨hb, hlt⟩
        · exact Or.inl hb
        · exact Or.inr ⟨h.length, hb, le_refl _, lt_of_lt_of_le hlt hlenfin⟩
      · refine List.Forall₂.imp ?_ hf2
        intro a b hab
        refine ⟨hab.1, ?_⟩
        rcases hab.2 with hb | ⟨b1, hb, hge, hlt⟩
        · exact Or.inl hb
        · exact Or.inr ⟨b1, hb, le_trans hlen1 hge, hlt⟩

/-- `ParticleEvaluator` (heap model) keeps well-formedness and separation:
the bests it stores are fresh copies, never aliases of position cells. -/
theorem rEvaluateAll_inv (f : Vec → ℚ) (s : RState)
    (hwf : wfB s = true) (hsep : sepB s = true) :
    wfB (rEvaluateAll f s) = true ∧ sepB (rEvaluateAll f s) = true := by
  obtain ⟨hwfp, hwfg⟩ := (wfB_iff s).mp hwf
  obtain ⟨hsepg, hsepp⟩ := (sepB_iff s).mp hsep
  obtain ⟨⟨ext, hext⟩, hf⟩ := rEvalList_spec f s.particles s.heap
  have hlen : s.heap.length ≤ (rEvalList f s.heap s.particles).1.length := by
    rw [hext]
    simp
  have hmate : ∀ q1 ∈ (rEvalList f s.heap s.particles).2, ∃ q ∈ s.particles,
      q1.pos = q.pos ∧ (q1.best = q.best ∨
        ∃ b, q1.best = some b ∧ s.heap.length ≤ b ∧
          b < (rEvalList f s.heap s.particles).1.length) :=
    forall2_mem_right hf
  constructor
  · rw [wfB_iff]
    constructor
    · intro p1 hp1
      obtain ⟨q, hq, hqpos, hqbest⟩ := hmate p1 hp1
      constructor
      · rw [hqpos]
        exact lt_of_lt_of_le (hwfp q hq).1 hlen
      · intro b hb
        rcases hqbest with hob | ⟨b1, hb1, -, hlt⟩
        · rw [hob] at hb
          exact lt_of_lt_of_le ((hwfp q hq).2 b hb) hlen
        · rw [hb1] at hb
          rw [← Option.some.inj hb]
          exact hlt
    · intro g hg
      exact lt_of_lt_of_le (hwfg g hg) hlen
  · rw [sepB_iff]
    constructor
    · intro g hg q1 hq1
      obtain ⟨q, hq, hqpos, -⟩ := hmate q1 hq1
      rw [hqpos]
      exact hsepg g hg q hq
    · intro p1 hp1 b hb q1 hq1
      obtain ⟨q, hq, hqpos, -⟩ := hmate q1 hq1
      obtain ⟨pp, hpp, -, hpbest⟩ := hmate p1 hp1
      rw [hqpos]
      rcases hpbest with hob | ⟨b1, hb1, hge, -⟩
      · rw [hob] at hb
        exact hsepp pp hpp b hb q hq
      · rw [hb1] at hb
        rw [← Option.some.inj hb]
        intro hcontra
        exact absurd (hcontra ▸ hge) (not_le.mpr (hwfp q hq).1)

/-- What the `SwarmEvaluator` scan (heap model) does to the references. -/
theorem rSweLoop_spec (pt : Option String) :
    ∀ (ps : List RParticle) (h : Heap) (acc : Option FVal × Option ℕ) (x : Heap × (Option FVal × Option ℕ)),
    rSweLoop pt h ps acc = .ok x →
    (∃ ext, x.1 = h ++ ext) ∧
    (x.2.2 = acc.2 ∨ ∃ g, x.2.2 = some g ∧ h.length ≤ g ∧ g < x.1.length) := by
  intro ps
  induction ps with
  | nil =>
    intro h acc x hx
    obtain rfl : (h, acc) = x := by simpa [rSweLoop] using hx
    exact ⟨⟨[], by simp⟩, Or.inl rfl⟩
  | cons p ps ih =>
    intro h acc x hx
    obtain ⟨best, bestPos⟩ := acc
    unfold rSweLoop at hx
    cases hadopt : sweAdoptCond pt best p.score with
    | error e =>
      rw [hadopt, bindE_err] at hx
      exact absurd hx (by simp)
    | ok adopt =>
      rw [hadopt, bindE_ok] at hx
      cases adopt with
      | true =>
        rw [if_pos rfl] at hx
        obtain ⟨⟨ext, hext⟩, hor⟩ := ih (h ++ [readA h p.pos]) (p.score.map .fin, some h.length) x hx
        refine ⟨⟨[readA h p.pos] ++ ext, by rw [hext, List.append_assoc]⟩, ?_⟩
        have hlen : (h ++ [readA h p.pos]).length ≤ x.1.length := by
          rw [hext]
          simp
        rcases hor with hsame | ⟨g, hg, hge, hlt⟩
        · refine Or.inr ⟨h.length, hsame, le_refl _, ?_⟩
          exact lt_of_lt_of_le (by simp) hlen
        · exact Or.inr ⟨g, hg, le_trans (by simp) hge, hlt⟩
      | false =>
        rw [if_neg (by simp)] at hx
        exact ih h (best, bestPos) x hx

/-- `SwarmEvaluator` (heap model) keeps well-formedness and separation: an
adopted global best is a fresh copy of the particle's position. -/
theorem rSwarmEval_inv (s1 s2 : RState)
    (hwf : wfB s1 = true) (hsep : sepB s1 = true)
    (h : rSwarmEval s1 = .ok s2) :
    wfB s2 = true ∧ sepB s2 = true := by
  obtain ⟨hwfp, hwfg⟩ := (wfB_iff s1).mp hwf
  obtain ⟨hsepg, hsepp⟩ := (sepB_iff s1).mp hsep
  unfold rSwarmEval at h
  cases hloop : rSweLoop s1.problem_type s1.heap s1.particles (s1.gb_score, s1.gb_pos) with
  | error e =>
    rw [hloop, bindE_err] at h
    exact absurd h (by simp)
  | ok x =>
    rw [hloop, bindE_ok] at h
    obtain rfl : _ = s2 := by simpa using h
    obtain ⟨⟨ext, hext⟩, hor⟩ := rSweLoop_spec s1.problem_type s1.particles s1.heap
      (s1.gb_score, s1.gb_pos) x hloop
    have hlen : s1.heap.length ≤ x.1.length := by
      rw [hext]
      simp
    constructor
    · rw [wfB_iff]
      refine ⟨?_, ?_⟩
      · intro p hp
        refine ⟨lt_of_lt_of_le (hwfp p hp).1 hlen, fun b hb =>
          lt_of_lt_of_le ((hwfp p hp).2 b hb) hlen⟩
      · intro g hg
        rcases hor with hsame | ⟨g1, hg1, -, hlt⟩
        · rw [hsame] at hg
          exact lt_of_lt_of_le (hwfg g hg) hlen
        · rw [hg1] at hg
          rw [← Option.some.inj hg]
          exact hlt
    · rw [sepB_iff]
      refine ⟨?_, ?_⟩
      · intro g hg q hq
        rcases hor with hsame | ⟨g1, hg1, hge, -⟩
        · rw [hsame] at hg
          exact hsepg g hg q hq
        · rw [hg1] at hg
          rw [← Option.some.inj hg]
          intro hcontra
          exact absurd (hcontra ▸ hge) (not_le.mpr (hwfp q hq).1)
      · exact hsepp

/-- What one heap-model position update does: it writes only the particle's
own position cell (the in-place `+=`), allocates the clipped result fresh,
and leaves `best` untouched. -/
theorem rUpdateParticle_spec (lo hi : Vec) (h : Heap) (p : RParticle)
    (x : Heap × RParticle) (hx : rUpdateParticle lo hi h p = .ok x) :
    x.2.best = p.best ∧ h.length ≤ x.1.length ∧
    ∀ i, i < h.length → i ≠ p.pos → readA x.1 i = readA h i := by
  unfold rUpdateParticle at hx
  cases hadd : vAdd (readA h p.pos) p.vel with
  | error e =>
    rw [hadd, bindE_err] at hx
    exact absurd hx (by simp)
  | ok sum =>
    rw [hadd, bindE_ok] at hx
    cases hclip : npClip (readA (h.set p.pos sum) p.pos) lo hi with
    | error e =>
      rw [hclip, bindE_err] at hx
      exact absurd hx (by simp)
    | ok clipped =>
      rw [hclip, bindE_ok] at hx
      obtain rfl : _ = x := by simpa using hx
      refine ⟨rfl, ?_, ?_⟩
      · simp
      · intro i hi hne
        show readA ((h.set p.pos sum) ++ [clipped]) i = readA h i
        rw [readA_append _ _ i (by simpa using hi), readA_set_ne _ _ _ _ (fun hc => hne hc.symm)]

/-- What the `UpdatePosition` loop (heap model) does to the references. -/
theorem rUpdateList_spec (lo hi : Vec) :
    ∀ (ps : List RParticle) (h : Heap) (x : Heap × List RParticle),
    rUpdateList lo hi h ps = .ok x →
    h.length ≤ x.1.length ∧
    List.Forall₂ (fun p p1 => p1.best = p.best) ps x.2 ∧
    ∀ i, i < h.length → (∀ p ∈ ps, i ≠ p.pos) → readA x.1 i = readA h i := by
  intro ps
  induction ps with
  | nil =>
    intro h x hx
    obtain rfl : (h, ([] : List RParticle)) = x := by simpa [rUpdateList] using hx
    exact ⟨le_refl _, List.Forall₂.nil, fun i _ _ => rfl⟩
  | cons p ps ih =>
    intro h x hx
    unfold rUpdateList at hx
    cases hstep : rUpdateParticle lo hi h p with
    | error e =>
      rw [hstep, bindE_err] at hx
      exact absurd hx (by simp)
    | ok y =>
      rw [hstep, bindE_ok] at hx
      cases hrest : rUpdateList lo hi y.1 ps with
      | error e =>
        rw [hrest, bindE_err] at hx
        exact absurd hx (by simp)
      | ok z =>
        rw [hrest, bindE_ok] at hx
        obtain rfl : (z.1, y.2 :: z.2) = x := by simpa using hx
        obtain ⟨hbesty, hleny, hframey⟩ := rUpdateParticle_spec lo hi h p y hstep
        obtain ⟨hlenz, hfz, hframez⟩ := ih y.1 z hrest
        refine ⟨le_trans hleny hlenz, List.Forall₂.cons hbesty hfz, ?_⟩
        intro i hi hne
        rw [hframez i (lt_of_lt_of_le hi hleny)
            (fun q hq => hne q (List.mem_cons_of_mem _ hq)),
          hframey i hi (hne p (List.mem_cons_self _ _))]

/-- Personal-best values survive when the heap changes only at position
cells. -/
theorem bestVals_frame (h1 h2 : Heap) :
    ∀ (ps ps1 : List RParticle),
    List.Forall₂ (fun p p1 => p1.best = p.best) ps ps1 →
    (∀ p ∈ ps, ∀ b, p.best = some b → readA h2 b = readA h1 b) →
    ps1.map (fun p => p.best.map (readA h2)) = ps.map (fun p => p.best.map (readA h1)) := by
  intro ps ps1 hf
  induction hf with
  | nil =>
    intro hread
    rfl
  | @cons a b as bs hR htail ih =>
    intro hread
    simp only [List.map_cons]
    congr 1
    · rw [hR]
      cases hab : a.best with
      | none => rfl
      | some bb =>
        simp only [Option.map_some']
        rw [hread a (List.mem_cons_self _ _) bb hab]
    · exact ih (fun p hp bb hb => hread p (List.mem_cons_of_mem _ hp) bb hb)

/-- C9 (status: confirmed).  The stored best positions are snapshots, never
aliases: evaluation and global-best adoption store fresh copies (separation
is established and preserved), so a later `UpdatePosition` — whose
`position += velocity` mutates each position cell in place — leaves the
swarm's global best value and every particle's personal best value
unchanged. -/
theorem best_positions_are_snapshots (f : Vec → ℚ) (lo hi : Vec) (s : RState)
    (hwf : wfB s = true) (hsep : sepB s = true) :
    (wfB (rEvaluateAll f s) = true ∧ sepB (rEvaluateAll f s) = true) ∧
    (∀ s2, rSwarmEval (rEvaluateAll f s) = .ok s2 →
      (wfB s2 = true ∧ sepB s2 = true) ∧
      (∀ s3, rUpdatePosition lo hi s2 = .ok s3 →
        gbVal s3 = gbVal s2 ∧ bestVals s3 = bestVals s2)) := by
  obtain ⟨hwf1, hsep1⟩ := rEvaluateAll_inv f s hwf hsep
  refine ⟨⟨hwf1, hsep1⟩, ?_⟩
  intro s2 h2
  obtain ⟨hwf2, hsep2⟩ := rSwarmEval_inv (rEvaluateAll f s) s2 hwf1 hsep1 h2
  refine ⟨⟨hwf2, hsep2⟩, ?_⟩
  intro s3 h3
  obtain ⟨hwfp2, hwfg2⟩ := (wfB_iff s2).mp hwf2
  obtain ⟨hsepg2, hsepp2⟩ := (sepB_iff s2).mp hsep2
  unfold rUpdatePosition at h3
  cases hlist : rUpdateList lo hi s2.heap s2.particles with
  | error e =>
    rw [hlist, bindE_err] at h3
    exact absurd h3 (by simp)
  | ok x =>
    rw [hlist, bindE_ok] at h3
    obtain rfl : _ = s3 := by simpa using h3
    obtain ⟨hlen, hf, hframe⟩ := rUpdateList_spec lo hi s2.particles s2.heap x hlist
    constructor
    · show s2.gb_pos.map (readA x.1) = s2.gb_pos.map (readA s2.heap)
      cases hg : s2.gb_pos with
      | none => rfl
      | some g =>
        simp only [Option.map_some']
        rw [hframe g (hwfg2 g hg) (fun q hq => hsepg2 g hg q hq)]
    · show x.2.map (fun p => p.best.map (readA x.1)) =
        s2.particles.map (fun p => p.best.map (readA s2.heap))
      exact bestVals_frame s2.heap x.1 s2.particles x.2 hf
        (fun p hp b hb => hframe b ((hwfp2 p hp).2 b hb) (hsepp2 p hp b hb))

/-- C9 witness: the full evaluate / swarm-evaluate / update-position round
on a concrete two-particle heap state. -/
theorem best_positions_are_snapshots_witness :
    ∃ s2 s3,
      rSwarmEval (rEvaluateAll rDemoF rDemo) = .ok s2 ∧
      rUpdatePosition [0] [2] s2 = .ok s3 ∧
      gbVal s3 = gbVal s2 ∧ bestVals s3 = bestVals s2 := by
  have hmain := best_positions_are_snapshots rDemoF [0] [2] rDemo (by decide) (by decide)
  have hs2 : rSwarmEval (rEvaluateAll rDemoF rDemo) =
      .ok ((rSwarmEval (rEvaluateAll rDemoF rDemo)).toOption.getD rDemo) := rfl
  have h2 := hmain.2 _ hs2
  have hs3 : rUpdatePosition [0] [2]
        ((rSwarmEval (rEvaluateAll rDemoF rDemo)).toOption.getD rDemo) =
      .ok ((rUpdatePosition [0] [2]
        ((rSwarmEval (rEvaluateAll rDemoF rDemo)).toOption.getD rDemo)).toOption.getD rDemo) := rfl
  have h3 := h2.2 _ hs3
  exact ⟨_, _, hs2, hs3, h3⟩

end RefModel

/-! ### The runner on a well-seeded build (C7) -/

/-- `draws` yields the requested number of samples. -/
theorem Rng.draws_length : ∀ (n : ℕ) (r : Rng), ((Rng.draws r n).1).length = n := by
  intro n
  induction n with
  | zero => intro r; rfl
  | succ k ih =>
    intro r
    simp only [Rng.draws, Rng.next, List.length_cons, ih]

/-- `draws` never changes the underlying sample stream. -/
theorem Rng.draws_seq : ∀ (n : ℕ) (r : Rng), ((Rng.draws r n).2).seq = r.seq := by
  intro n
  induction n with
  | zero => intro r; rfl
  | succ k ih =>
    intro r
    simp only [Rng.draws, Rng.next, ih]

/-- With a unit-interval stream, every sample drawn lies in `[0, 1]`. -/
theorem Rng.draws_unit : ∀ (n : ℕ) (r : Rng), r.inUnit →
    ∀ u ∈ (Rng.draws r n).1, 0 ≤ u ∧ u ≤ 1 := by
  intro n
  induction n with
  | zero =>
    intro r h u hu
    simp [Rng.draws] at hu
  | succ k ih =>
    intro r h u hu
    simp only [Rng.draws, Rng.next] at hu
    rcases List.mem_cons.mp hu with rfl | hmem
    · exact h r.idx
    · exact ih ⟨r.seq, r.idx + 1⟩ (fun m => h m) u hmem

/-- The stream property survives consuming draws. -/
theorem Rng.inUnit_draws (r : Rng) (n : ℕ) (h : r.inUnit) :
    ((Rng.draws r n).2).inUnit := by
  intro m
  rw [Rng.draws_seq]
  exact h m

/-- `zip3With` over three equal-length vectors keeps the length. -/
theorem zip3With_length (f : ℚ → ℚ → ℚ → ℚ) :
    ∀ (a b c : Vec), a.length = b.length → a.length = c.length →
    (zip3With f a b c).length = a.length := by
  intro a
  induction a with
  | nil =>
    intro b c h1 h2
    obtain rfl : b = [] := List.length_eq_zero.mp h1.symm
    obtain rfl : c = [] := List.length_eq_zero.mp h2.symm
    rfl
  | cons x xs ih =>
    intro b c h1 h2
    cases b with
    | nil => simp at h1
    | cons y ys =>
      cases c with
      | nil => simp at h2
      | cons z zs =>
        simp only [List.length_cons, Nat.succ.injEq] at h1 h2
        simp only [zip3With, List.length_cons, Nat.succ.injEq]
        exact ih ys zs h1 h2

/-- A `np.random.uniform(lo, hi)` sample built from unit draws lands inside
well-ordered bounds. -/
theorem withinB_uniform :
    ∀ (lo hi us : Vec), leB lo hi = true → lo.length = hi.length →
    lo.length = us.length → (∀ u ∈ us, 0 ≤ u ∧ u ≤ 1) →
    withinB lo hi (zip3With (fun l h u => l + u * (h - l)) lo hi us) = true := by
  intro lo
  induction lo with
  | nil =>
    intro hi us hle h1 h2 hu
    obtain rfl : hi = [] := List.length_eq_zero.mp h1.symm
    obtain rfl : us = [] := List.length_eq_zero.mp h2.symm
    rfl
  | cons l ls ih =>
    intro hi us hle h1 h2 hu
    cases hi with
    | nil => simp at h1
    | cons h hs =>
      cases us with
      | nil => simp at h2
      | cons u uu =>
        simp only [leB, Bool.and_eq_true, decide_eq_true_eq] at hle
        simp only [List.length_cons, Nat.succ.injEq] at h1 h2
        obtain ⟨hu0, hu1⟩ := hu u (List.mem_cons_self _ _)
        simp only [zip3With, withinB, Bool.and_eq_true, decide_eq_true_eq]
        refine ⟨⟨?_, ?_⟩, ih hs uu hle.2 h1 h2 (fun v hv => hu v (List.mem_cons_of_mem _ hv))⟩
        · nlinarith [hle.1]
        · nlinarith [hle.1]

/-- Elementwise containment forces the three lengths to agree. -/
theorem withinB_length :
    ∀ (lo hi x : Vec), withinB lo hi x = true →
    x.length = lo.length ∧ x.length = hi.length := by
  intro lo
  induction lo with
  | nil =>
    intro hi x h
    cases hi <;> cases x <;> simp_all [withinB]
  | cons l ls ih =>
    intro hi x h
    cases hi with
    | nil => cases x <;> simp_all [withinB]
    | cons hh hs =>
      cases x with
      | nil => simp_all [withinB]
      | cons y ys =>
        simp only [withinB, Bool.and_eq_true] at h
        obtain ⟨h1, h2⟩ := ih hs ys h.2
        refine ⟨?_, ?_⟩ <;> simp only [List.length_cons] <;> omega

/-- Pointwise success of the function lifts to success of `mapM`, with the
pointwise relation holding along the image. -/
theorem mapM_ok_of_forall {α β : Type} (g : α → Except Err β) (R : α → β → Prop) :
    ∀ (l : List α), (∀ a ∈ l, ∃ b, g a = .ok b ∧ R a b) →
    ∃ l1, l.mapM g = .ok l1 ∧ List.Forall₂ R l l1 := by
  intro l
  induction l with
  | nil =>
    intro h
    refine ⟨[], ?_, List.Forall₂.nil⟩
    rw [List.mapM_nil]
    rfl
  | cons a as ih =>
    intro h
    obtain ⟨b, hb, hR⟩ := h a (List.mem_cons_self _ _)
    obtain ⟨bs, hbs, hF⟩ := ih (fun x hx => h x (List.mem_cons_of_mem _ hx))
    refine ⟨b :: bs, ?_, List.Forall₂.cons hR hF⟩
    simp only [List.mapM_cons, hb, hbs, bindE_ok]
    rfl

/-- Every element of the image list of a `Forall₂` comes from a related
source element. -/
theorem forall2_mem_exists {α β : Type} {R : α → β → Prop} :
    ∀ {l1 : List α} {l2 : List β}, List.Forall₂ R l1 l2 →
    ∀ b ∈ l2, ∃ a ∈ l1, R a b := by
  intro l1 l2 h
  induction h with
  | nil =>
    intro b hb
    simp at hb
  | cons hR hF ih =>
    intro b hb
    rcases List.mem_cons.mp hb with rfl | hb2
    · exact ⟨_, List.mem_cons_self _ _, hR⟩
    · obtain ⟨a, ha, hRa⟩ := ih b hb2
      exact ⟨a, List.mem_cons_of_mem _ ha, hRa⟩

/-- `mapRng` with a step that preserves a stream invariant and realises a
pointwise relation. -/
theorem mapRng_forall2 (g : Particle → Rng → Particle × Rng) (Q : Rng → Prop)
    (R : Particle → Particle → Prop)
    (hg : ∀ p r, Q r → R p (g p r).1 ∧ Q (g p r).2) :
    ∀ (ps : List Particle) (r : Rng), Q r →
    List.Forall₂ R ps (mapRng g ps r).1 ∧ Q (mapRng g ps r).2 := by
  intro ps
  induction ps with
  | nil =>
    intro r hQ
    exact ⟨List.Forall₂.nil, hQ⟩
  | cons p ps2 ih =>
    intro r hQ
    obtain ⟨hR, hQ1⟩ := hg p r hQ
    obtain ⟨hF, hQ2⟩ := ih (g p r).2 hQ1
    constructor
    · simp only [mapRng]
      exact List.Forall₂.cons hR hF
    · simp only [mapRng]
      exact hQ2

/-- A first `InitialisePosition` run: succeeds on agreeing bound arrays and
gives every particle a fresh in-bounds position, keeping everything else. -/
theorem initialisePosition_ok (s : Swarm) (r : Rng) (lo hi : Vec) (d : ℕ)
    (hflag : s.position_initialised = false)
    (hlo : s.lower_bounds = some lo) (hhi : s.upper_bounds = some hi)
    (hd : s.dimensions = some d) (hlol : lo.length = d) (hhil : hi.length = d)
    (hle : leB lo hi = true) (hr : r.inUnit) :
    ∃ ps1 r1, initialisePosition s r =
        .ok ({ s with particles := ps1, position_initialised := true }, r1) ∧
      r1.inUnit ∧
      List.Forall₂ (fun p p1 =>
        (∃ x, p1.position = some x ∧ x.length = d ∧ withinB lo hi x = true) ∧
        p1.problem_type = p.problem_type ∧ p1.velocity = p.velocity ∧
        p1.best_position = p.best_position ∧ p1.best_score = p.best_score ∧
        p1.neighbours = p.neighbours) s.particles ps1 := by
  have key := mapRng_forall2
    (fun (p : Particle) (rr : Rng) =>
      let (pos, rr1) := uniformVec lo hi d rr
      ({ p with position := some pos }, rr1))
    Rng.inUnit
    (fun p p1 =>
      (∃ x, p1.position = some x ∧ x.length = d ∧ withinB lo hi x = true) ∧
      p1.problem_type = p.problem_type ∧ p1.velocity = p.velocity ∧
      p1.best_position = p.best_position ∧ p1.best_score = p.best_score ∧
      p1.neighbours = p.neighbours)
    (by
      intro p rr hQ
      refine ⟨⟨⟨(uniformVec lo hi d rr).1, rfl, ?_, ?_⟩, rfl, rfl, rfl, rfl, rfl⟩, ?_⟩
      · have hz := zip3With_length (fun l h u => l + u * (h - l)) lo hi (rr.draws d).1
          (hlol.trans hhil.symm) (by rw [Rng.draws_length]; exact hlol)
        exact hz.trans hlol
      · exact withinB_uniform lo hi (rr.draws d).1 hle (hlol.trans hhil.symm)
          (by rw [Rng.draws_length]; exact hlol) (Rng.draws_unit d rr hQ)
      · exact Rng.inUnit_draws rr d hQ)
    s.particles r hr
  refine ⟨_, _, ?_, key.2, key.1⟩
  unfold initialisePosition
  rw [hflag, hlo, hhi, hd]
  simp only [Bool.false_eq_true, if_false]
  rw [if_pos (⟨hlol, hhil⟩ : lo.length = d ∧ hi.length = d)]

/-- A first `InitialiseVelocity` run: always succeeds on a set dimension
count and gives every particle a fresh length-`d` velocity. -/
theorem initialiseVelocity_ok (s : Swarm) (r : Rng) (d : ℕ)
    (hflag : s.velocity_initialised = false) (hd : s.dimensions = some d) :
    ∃ ps1 r1, initialiseVelocity s r =
        .ok ({ s with particles := ps1, velocity_initialised := true }, r1) ∧
      List.Forall₂ (fun p p1 =>
        (∃ v, p1.velocity = some v ∧ v.length = d) ∧
        p1.problem_type = p.problem_type ∧ p1.position = p.position ∧
        p1.best_position = p.best_position ∧ p1.best_score = p.best_score ∧
        p1.neighbours = p.neighbours) s.particles ps1 := by
  have key := mapRng_forall2
    (fun (p : Particle) (rr : Rng) =>
      let (v, rr1) := uniformSym d rr
      ({ p with velocity := some v }, rr1))
    (fun _ => True)
    (fun p p1 =>
      (∃ v, p1.velocity = some v ∧ v.length = d) ∧
      p1.problem_type = p.problem_type ∧ p1.position = p.position ∧
      p1.best_position = p.best_position ∧ p1.best_score = p.best_score ∧
      p1.neighbours = p.neighbours)
    (by
      intro p rr _
      refine ⟨⟨⟨(uniformSym d rr).1, rfl, ?_⟩, rfl, rfl, rfl, rfl, rfl⟩, trivial⟩
      show (((rr.draws d).1).map (fun u => -1 + u * 2)).length = d
      rw [List.length_map, Rng.draws_length])
    s.particles r trivial
  refine ⟨_, (mapRng
    (fun (p : Particle) (rr : Rng) =>
      let (v, rr1) := uniformSym d rr
      ({ p with velocity := some v }, rr1)) s.particles r).2, ?_, key.1⟩
  unfold initialiseVelocity
  rw [hflag, hd]
  simp only [Bool.false_eq_true, if_false]

/-- Mapping over an enumeration realises an index-aware pointwise
relation. -/
theorem forall2_enumFrom_map {α β : Type} (g : ℕ × α → β) (R : α → β → Prop) :
    ∀ (l : List α) (k : ℕ), (∀ i a, k ≤ i → i < k + l.length → R a (g (i, a))) →
    List.Forall₂ R l ((l.enumFrom k).map g) := by
  intro l
  induction l with
  | nil =>
    intro k h
    exact List.Forall₂.nil
  | cons a as ih =>
    intro k h
    simp only [List.enumFrom, List.map_cons]
    refine List.Forall₂.cons (h k a le_rfl (by simp)) (ih (k + 1) ?_)
    intro i b h1 h2
    refine h i b (by omega) ?_
    simp only [List.length_cons]
    omega

/-- The global neighbour set of any index is nonempty (given at least two
particles) and holds only valid indices. -/
theorem globalNeighbourIdx_spec (n i : ℕ) (hn : 2 ≤ n) :
    globalNeighbourIdx n i ≠ [] ∧ ∀ j ∈ globalNeighbourIdx n i, j < n := by
  constructor
  · intro hemp
    have hall := List.filter_eq_nil.mp hemp
    have h0 := hall 0 (List.mem_range.mpr (by omega))
    have h1 := hall 1 (List.mem_range.mpr (by omega))
    simp at h0 h1
    omega
  · intro j hj
    have := List.mem_filter.mp hj
    exact List.mem_range.mp this.1

/-- The ring neighbour pair of a valid index is nonempty and holds only
valid indices. -/
theorem ringNeighbourIdx_spec (n i : ℕ) (hn : 2 ≤ n) (hi : i < n) :
    ringNeighbourIdx n i ≠ [] ∧ ∀ j ∈ ringNeighbourIdx n i, j < n := by
  constructor
  · simp [ringNeighbourIdx]
  · intro j hj
    simp only [ringNeighbourIdx, List.mem_cons, List.mem_singleton,
      List.not_mem_nil, or_false] at hj
    rcases hj with rfl | rfl
    · split <;> omega
    · exact Nat.mod_lt _ (by omega)

/-- A first `InitialiseTopology` run on an at-least-two-particle swarm:
every particle receives a nonempty set of valid neighbour indices and keeps
all its other fields. -/
theorem initialiseTopology_ok (k : TopologyKind) (s : Swarm)
    (hflag : s.topology_initialised = false) (hn : 2 ≤ s.particles.length) :
    ∃ ps1, initialiseTopology k s =
        { s with particles := ps1, topology_initialised := true } ∧
      List.Forall₂ (fun p p1 =>
        p1.problem_type = p.problem_type ∧ p1.position = p.position ∧
        p1.velocity = p.velocity ∧ p1.best_position = p.best_position ∧
        p1.best_score = p.best_score ∧ p1.score = p.score ∧
        p1.neighbours ≠ [] ∧ ∀ j ∈ p1.neighbours, j < s.particles.length)
        s.particles ps1 := by
  refine ⟨s.particles.enum.map (fun x =>
    { x.2 with neighbours := match k with
        | .globalT => globalNeighbourIdx s.particles.length x.1
        | .ringT => ringNeighbourIdx s.particles.length x.1 }), ?_, ?_⟩
  · unfold initialiseTopology
    rw [hflag]
    simp only [Bool.false_eq_true, if_false]
  · refine forall2_enumFrom_map _ _ s.particles 0 ?_
    intro i a hk hi
    refine ⟨rfl, rfl, rfl, rfl, rfl, rfl, ?_⟩
    cases k with
    | globalT =>
      exact globalNeighbourIdx_spec s.particles.length i hn
    | ringT =>
      exact ringNeighbourIdx_spec s.particles.length i hn (by omega)

/-- `Particle.evaluate` under a succeeding objective: the score is recorded,
the frame fields survive, the personal best is either kept or snapshots the
current position, and a seeded best matching the problem type is always
replaced by the current position. -/
theorem evaluate_ok_spec (f : Vec → Except Err ℚ) (p : Particle) (x : Vec) (q : ℚ)
    (hx : p.position = some x) (hq : f x = .ok q) :
    ∃ p1, Particle.evaluate f p = .ok p1 ∧
      p1.problem_type = p.problem_type ∧ p1.position = p.position ∧
      p1.velocity = p.velocity ∧ p1.neighbours = p.neighbours ∧
      p1.score = some q ∧
      (p1.best_position = p.best_position ∨ p1.best_position = p.position) ∧
      ((p.problem_type = some "min" ∧ p.best_score = .pinf) ∨
        (p.problem_type = some "max" ∧ p.best_score = .ninf) →
        p1.best_position = p.position) := by
  unfold Particle.evaluate
  simp only [hx, hq, bindE_ok]
  split_ifs with h1 h2
  · refine ⟨_, rfl, rfl, rfl, rfl, rfl, rfl, Or.inr rfl, fun _ => rfl⟩
  · refine ⟨_, rfl, rfl, rfl, rfl, rfl, rfl, Or.inr rfl, fun _ => rfl⟩
  · refine ⟨_, rfl, rfl, rfl, rfl, rfl, rfl, Or.inl rfl, ?_⟩
    rintro (⟨hptm, hbs⟩ | ⟨hptx, hbs⟩)
    · exact absurd ⟨hptm, by rw [hbs]; rfl⟩ h2
    · exact absurd ⟨hptx, by rw [hbs]; rfl⟩ h1

/-- `ParticleEvaluator.process` on a swarm whose objective succeeds at the
swarm's dimensionality. -/
theorem swarmEvaluate_ok (s : Swarm) (f : ObjFn) (hf : s.objective_function = some f)
    (d : ℕ) (hft : ∀ v : Vec, v.length = d → ∃ q, f.fn v = .ok q)
    (hpos : ∀ p ∈ s.particles, ∃ x, p.position = some x ∧ x.length = d) :
    ∃ ps1, Swarm.evaluate s = .ok { s with particles := ps1 } ∧
      List.Forall₂ (fun p p1 =>
        p1.problem_type = p.problem_type ∧ p1.position = p.position ∧
        p1.velocity = p.velocity ∧ p1.neighbours = p.neighbours ∧
        (∃ q, p1.score = some q) ∧
        (p1.best_position = p.best_position ∨ p1.best_position = p.position) ∧
        ((p.problem_type = some "min" ∧ p.best_score = .pinf) ∨
          (p.problem_type = some "max" ∧ p.best_score = .ninf) →
          p1.best_position = p.position)) s.particles ps1 := by
  obtain ⟨ps1, hmap, hF⟩ := mapM_ok_of_forall (Particle.evaluate f.fn)
    (fun p p1 =>
      p1.problem_type = p.problem_type ∧ p1.position = p.position ∧
      p1.velocity = p.velocity ∧ p1.neighbours = p.neighbours ∧
      (∃ q, p1.score = some q) ∧
      (p1.best_position = p.best_position ∨ p1.best_position = p.position) ∧
      ((p.problem_type = some "min" ∧ p.best_score = .pinf) ∨
        (p.problem_type = some "max" ∧ p.best_score = .ninf) →
        p1.best_position = p.position))
    s.particles
    (fun p hp => by
      obtain ⟨x, hx, hxl⟩ := hpos p hp
      obtain ⟨q, hq⟩ := hft x hxl
      obtain ⟨p1, he, c1, c2, c3, c4, c5, c6, c7⟩ := evaluate_ok_spec f.fn p x q hx hq
      exact ⟨p1, he, c1, c2, c3, c4, ⟨q, c5⟩, c6, c7⟩)
  refine ⟨ps1, ?_, hF⟩
  unfold Swarm.evaluate
  simp only [hf, hmap, bindE_ok]

/-- The adoption test never raises when the running best is present and the
particle is scored. -/
theorem sweAdoptCond_ok (pt : Option String) (best : FVal) (q : ℚ) :
    ∃ b, sweAdoptCond pt (some best) (some q) = .ok b := by
  unfold sweAdoptCond
  split_ifs <;> exact ⟨_, rfl⟩

/-- The `SwarmEvaluator` scan keeps a finite running best over scored,
positioned particles, and the best position keeps satisfying `P`. -/
theorem sweLoop_fin (pt : Option String) (P : Vec → Prop) :
    ∀ (ps : List Particle) (q0 : ℚ) (g0 : Vec),
    (∀ p ∈ ps, (∃ q, p.score = some q) ∧ (∃ x, p.position = some x ∧ P x)) →
    P g0 →
    ∃ q1 g1, sweLoop pt ps (some (.fin q0), some g0) =
        .ok (some (.fin q1), some g1) ∧ P g1 := by
  intro ps
  induction ps with
  | nil =>
    intro q0 g0 h hg
    exact ⟨q0, g0, rfl, hg⟩
  | cons p ps2 ih =>
    intro q0 g0 h hg
    obtain ⟨⟨qs, hqs⟩, ⟨x, hx, hPx⟩⟩ := h p (List.mem_cons_self _ _)
    obtain ⟨b, hb⟩ := sweAdoptCond_ok pt (.fin q0) qs
    cases b with
    | true =>
      obtain ⟨q1, g1, hrec, hP1⟩ :=
        ih qs x (fun w hw => h w (List.mem_cons_of_mem _ hw)) hPx
      refine ⟨q1, g1, ?_, hP1⟩
      simp only [sweLoop, hqs, hb, bindE_ok, if_true, sweAdopt, hx,
        Option.map_some']
      exact hrec
    | false =>
      obtain ⟨q1, g1, hrec, hP1⟩ :=
        ih q0 g0 (fun w hw => h w (List.mem_cons_of_mem _ hw)) hg
      refine ⟨q1, g1, ?_, hP1⟩
      simp only [sweLoop, hqs, hb, bindE_ok, if_false, Bool.false_eq_true]
      exact hrec

/-- From a seeded global best, the scan over a nonempty scored swarm adopts
at once and ends finite. -/
theorem sweLoop_seeded (pt : String) (hpt : pt = "min" ∨ pt = "max")
    (P : Vec → Prop) (p : Particle) (ps : List Particle) (bp0 : Option Vec)
    (hall : ∀ w ∈ p :: ps, (∃ q, w.score = some q) ∧
      (∃ x, w.position = some x ∧ P x)) :
    ∃ q1 g1, sweLoop (some pt) (p :: ps) (some (seedFor pt), bp0) =
        .ok (some (.fin q1), some g1) ∧ P g1 := by
  obtain ⟨⟨qs, hqs⟩, ⟨x, hx, hPx⟩⟩ := hall p (List.mem_cons_self _ _)
  have hcond : sweAdoptCond (some pt) (some (seedFor pt)) (some qs) = .ok true := by
    rcases hpt with rfl | rfl
    · rfl
    · rfl
  obtain ⟨q1, g1, hrec, hP1⟩ := sweLoop_fin (some pt) P ps qs x
    (fun w hw => hall w (List.mem_cons_of_mem _ hw)) hPx
  refine ⟨q1, g1, ?_, hP1⟩
  simp only [sweLoop, hcond, bindE_ok, if_true, sweAdopt, hx, hqs,
    Option.map_some']
  exact hrec

/-- The broadcast subtraction succeeds whenever the lengths agree or either
side has length one. -/
theorem vSubBroadcast_ok (a b : Vec)
    (h : a.length = b.length ∨ b.length = 1 ∨ a.length = 1) :
    ∃ w, vSubBroadcast a b = .ok w := by
  unfold vSubBroadcast
  split_ifs with h1 h2 h3
  · exact ⟨_, rfl⟩
  · exact ⟨_, rfl⟩
  · exact ⟨_, rfl⟩
  · rcases h with h | h | h <;> simp_all

/-- `SwarmEvaluator.process` on a healthy swarm: succeeds, leaves the
particles untouched, and installs a finite global best whose position is a
dimension-length in-bounds vector. -/
theorem swarmEvaluatorProcess_ok (s : Swarm) (pt : String) (d : ℕ) (lo hi : Vec)
    (f : ObjFn)
    (hpt : pt = "min" ∨ pt = "max") (hptS : s.problem_type = some pt)
    (hf : s.objective_function = some f) (hd : s.dimensions = some d)
    (hfn : f.name ∈ optimalNames)
    (hplen : (optimalPositionFor f.name d).length = d ∨
      (optimalPositionFor f.name d).length = 1 ∨ d = 1)
    (hne : s.particles ≠ [])
    (hscored : ∀ p ∈ s.particles, (∃ q, p.score = some q) ∧
      (∃ x, p.position = some x ∧ x.length = d ∧ withinB lo hi x = true))
    (hgb : (s.global_best_score = some (seedFor pt)) ∨
      ((∃ q0, s.global_best_score = some (.fin q0)) ∧
       (∃ g0, s.global_best_position = some g0 ∧ g0.length = d ∧
         withinB lo hi g0 = true))) :
    ∃ q1 g1 sp pp, swarmEvaluatorProcess s = .ok
        { s with global_best_score := some (.fin q1),
                 global_best_position := some g1,
                 score_precision := sp, position_precision := pp } ∧
      g1.length = d ∧ withinB lo hi g1 = true := by
  have hloop : ∃ q1 g1, sweLoop s.problem_type s.particles
      (s.global_best_score, s.global_best_position) =
        .ok (some (.fin q1), some g1) ∧ g1.length = d ∧ withinB lo hi g1 = true := by
    rcases hgb with hseed | ⟨⟨q0, hq0⟩, ⟨g0, hg0, hg0l, hg0w⟩⟩
    · cases hps : s.particles with
      | nil => exact absurd hps hne
      | cons p ps =>
        obtain ⟨q1, g1, hrun, hP⟩ := sweLoop_seeded pt hpt
          (fun x => x.length = d ∧ withinB lo hi x = true) p ps
          s.global_best_position
          (fun w hw => hscored w (by rw [hps]; exact hw))
        rw [hptS, hseed]
        exact ⟨q1, g1, hrun, hP.1, hP.2⟩
    · obtain ⟨q1, g1, hrun, hP⟩ := sweLoop_fin s.problem_type
        (fun x => x.length = d ∧ withinB lo hi x = true) s.particles q0 g0
        hscored ⟨hg0l, hg0w⟩
      rw [hq0, hg0]
      exact ⟨q1, g1, hrun, hP.1, hP.2⟩
  obtain ⟨q1, g1, hrun, hg1l, hg1w⟩ := hloop
  have hmk : ConvergenceCalculator.make f.name d =
      .ok ⟨f.name, d, 1 / 1000000, optimalPositionFor f.name d, 0⟩ := by
    unfold ConvergenceCalculator.make
    rw [if_pos hfn]
  obtain ⟨w, hw⟩ := vSubBroadcast_ok g1 (optimalPositionFor f.name d)
    (by
      rcases hplen with h | h | h
      · exact Or.inl (by rw [hg1l, h])
      · exact Or.inr (Or.inl h)
      · exact Or.inr (Or.inr (by rw [hg1l, h])))
  have hpp : ConvergenceCalculator.precision_position
      ⟨f.name, d, 1 / 1000000, optimalPositionFor f.name d, 0⟩ g1 =
      .ok (w.foldr (fun x acc => x * x + acc) 0) := by
    unfold ConvergenceCalculator.precision_position
    simp only [hw, bindE_ok]
  refine ⟨q1, g1,
    s.score_precision ++ [ConvergenceCalculator.precision_score
      ⟨f.name, d, 1 / 1000000, optimalPositionFor f.name d, 0⟩ (.fin q1)],
    s.position_precision ++ [List.foldr (fun x acc => x * x + acc) 0 w],
    ?_, hg1l, hg1w⟩
  unfold swarmEvaluatorProcess
  rw [hrun]
  simp only [bindE_ok, hf, hd, hmk, optToExcept_some, hpp]

/-- The chosen-element fold stays inside the candidate pool. -/
theorem foldl_choice_mem {α : Type} (g : α → α → Bool) :
    ∀ (l : List α) (a : α),
    l.foldl (fun w p => if g w p then p else w) a ∈ a :: l := by
  intro l
  induction l with
  | nil =>
    intro a
    exact List.mem_cons_self _ _
  | cons b bs ih =>
    intro a
    simp only [List.foldl_cons]
    rcases List.mem_cons.mp (ih (if g a b then b else a)) with h1 | h1
    · rw [h1]
      split
      · exact List.mem_cons_of_mem _ (List.mem_cons_self _ _)
      · exact List.mem_cons_self _ _
    · exact List.mem_cons_of_mem _ (List.mem_cons_of_mem _ h1)

/-- Selecting the best neighbour succeeds on a nonempty set of valid indices
and returns a member of the particle list. -/
theorem selectNeighbourBest_ok (pt : Option String) (ps : List Particle)
    (idxs : List ℕ) (hne : idxs ≠ []) (hlt : ∀ j ∈ idxs, j < ps.length) :
    ∃ nb, selectNeighbourBest pt ps idxs = .ok nb ∧ nb ∈ ps := by
  obtain ⟨ns, hmapM, hF⟩ := mapM_ok_of_forall
    (fun j => optToExcept (ps.get? j) Err.indexError)
    (fun _ b => b ∈ ps) idxs
    (fun j hj => by
      have hjl := hlt j hj
      have hp : ps.get? j = some (ps.get ⟨j, hjl⟩) := List.get?_eq_get hjl
      refine ⟨ps.get ⟨j, hjl⟩, ?_, List.get_mem _ _ _⟩
      show optToExcept (ps.get? j) Err.indexError = Except.ok (ps.get ⟨j, hjl⟩)
      rw [hp]
      rfl)
  have hmem : ∀ b ∈ ns, b ∈ ps := fun b hb =>
    (forall2_mem_exists hF b hb).elim (fun a ha => ha.2)
  cases ns with
  | nil =>
    exfalso
    have hl := List.Forall₂.length_eq hF
    cases idxs with
    | nil => exact hne rfl
    | cons i is => simp at hl
  | cons q qs =>
    by_cases hptm : pt = some "max"
    · refine ⟨qs.foldl (fun w p => if FVal.lt w.best_score p.best_score then p else w) q,
        ?_, ?_⟩
      · unfold selectNeighbourBest
        rw [hmapM]
        simp only [bindE_ok]
        rw [if_pos hptm]
      · exact hmem _ (foldl_choice_mem (fun w p => FVal.lt w.best_score p.best_score) qs q)
    · refine ⟨qs.foldl (fun w p => if FVal.lt p.best_score w.best_score then p else w) q,
        ?_, ?_⟩
      · unfold selectNeighbourBest
        rw [hmapM]
        simp only [bindE_ok]
        rw [if_neg hptm]
      · exact hmem _ (foldl_choice_mem (fun w p => FVal.lt p.best_score w.best_score) qs q)

/-- The `UpdateVelocity` loop body succeeds on a healthy particle list and
replaces only the processed particle's velocity, with a length-`d`
vector. -/
theorem updateVelocityStep_ok (pt : Option String) (lo hi : Vec) (d : ℕ)
    (cw sw iw : ℚ) (hlol : lo.length = d) (hhil : hi.length = d)
    (ps : List Particle) (i : ℕ) (r : Rng) (p : Particle)
    (hget : ps.get? i = some p)
    (hpos : ∃ x, p.position = some x ∧ x.length = d)
    (hvel : ∃ v, p.velocity = some v ∧ v.length = d)
    (hbp : ∃ b, p.best_position = some b ∧ b.length = d)
    (hnbne : p.neighbours ≠ []) (hnblt : ∀ j ∈ p.neighbours, j < ps.length)
    (hallbp : ∀ w ∈ ps, ∃ b, w.best_position = some b ∧ b.length = d) :
    ∃ v3 r2, v3.length = d ∧
      updateVelocityStep pt lo hi d cw sw iw ps i r =
        .ok (ps.set i { p with velocity := some v3 }, r2) := by
  obtain ⟨x, hx, hxl⟩ := hpos
  obtain ⟨v, hv, hvl⟩ := hvel
  obtain ⟨b, hb, hbl⟩ := hbp
  obtain ⟨nb, hnbeq, hnbmem⟩ := selectNeighbourBest_ok pt ps p.neighbours hnbne hnblt
  obtain ⟨nbp, hnbp, hnbpl⟩ := hallbp nb hnbmem
  unfold updateVelocityStep
  simp only [hget, hnbeq, bindE_ok, hnbp, optToExcept_some, hx, hb, hv]
  cases hs1 : vSub b x with
  | error e =>
    exfalso
    unfold vSub at hs1
    rw [if_pos (by rw [hbl, hxl])] at hs1
    exact absurd hs1 (by simp)
  | ok diff1 =>
    have hd1 : diff1.length = d := by
      obtain ⟨hlen, rfl⟩ := vSub_ok_iff.mp hs1
      rw [List.length_zipWith, hbl, hxl]
      omega
    simp only [hs1, bindE_ok]
    cases hm1 : vMul (r.draws d).1 diff1 with
    | error e =>
      exfalso
      unfold vMul at hm1
      rw [if_pos (by rw [Rng.draws_length, hd1])] at hm1
      exact absurd hm1 (by simp)
    | ok c1 =>
      have hc1 : c1.length = d := by
        obtain ⟨hlen, rfl⟩ := vMul_ok_iff.mp hm1
        rw [List.length_zipWith, Rng.draws_length, hd1]
        omega
      simp only [hm1, bindE_ok]
      cases hs2 : vSub nbp x with
      | error e =>
        exfalso
        unfold vSub at hs2
        rw [if_pos (by rw [hnbpl, hxl])] at hs2
        exact absurd hs2 (by simp)
      | ok diff2 =>
        have hd2 : diff2.length = d := by
          obtain ⟨hlen, rfl⟩ := vSub_ok_iff.mp hs2
          rw [List.length_zipWith, hnbpl, hxl]
          omega
        simp only [hs2, bindE_ok]
        cases hm2 : vMul ((r.draws d).2.draws d).1 diff2 with
        | error e =>
          exfalso
          unfold vMul at hm2
          rw [if_pos (by rw [Rng.draws_length, hd2])] at hm2
          exact absurd hm2 (by simp)
        | ok c2 =>
          have hc2 : c2.length = d := by
            obtain ⟨hlen, rfl⟩ := vMul_ok_iff.mp hm2
            rw [List.length_zipWith, Rng.draws_length, hd2]
            omega
          simp only [hm2, bindE_ok]
          cases ha1 : vAdd (v.map (fun y => iw * y)) (c1.map (fun y => cw * y)) with
          | error e =>
            exfalso
            unfold vAdd at ha1
            rw [if_pos (by rw [List.length_map, List.length_map, hvl, hc1])] at ha1
            exact absurd ha1 (by simp)
          | ok v1 =>
            have hv1 : v1.length = d := by
              obtain ⟨hlen, rfl⟩ := vAdd_ok_iff.mp ha1
              rw [List.length_zipWith, List.length_map, List.length_map, hvl, hc1]
              omega
            simp only [ha1, bindE_ok]
            cases ha2 : vAdd v1 (c2.map (fun y => sw * y)) with
            | error e =>
              exfalso
              unfold vAdd at ha2
              rw [if_pos (by rw [List.length_map, hv1, hc2])] at ha2
              exact absurd ha2 (by simp)
            | ok v2 =>
              have hv2 : v2.length = d := by
                obtain ⟨hlen, rfl⟩ := vAdd_ok_iff.mp ha2
                rw [List.length_zipWith, List.length_map, hv1, hc2]
                omega
              simp only [ha2, bindE_ok]
              cases hcl : npClip v2 lo hi with
              | error e =>
                exfalso
                unfold npClip at hcl
                rw [if_pos ⟨by rw [hv2, hlol], by rw [hv2, hhil]⟩] at hcl
                exact absurd hcl (by simp)
              | ok v3 =>
                have hv3 : v3.length = d := by
                  obtain ⟨hl1, hl2, rfl⟩ := npClip_ok_iff.mp hcl
                  rw [zip3With_length _ _ _ _ (by rw [hv2, hlol]) (by rw [hv2, hhil]), hv2]
                simp only [hcl, bindE_ok]
                exact ⟨v3, _, hv3, rfl⟩

/-- The `UpdateVelocity` loop succeeds along any index list over a healthy
particle list and preserves per-particle health. -/
theorem updVelLoop_ok (pt0 : String) (pt : Option String) (lo hi : Vec) (d n : ℕ)
    (cw sw iw : ℚ) (hlol : lo.length = d) (hhil : hi.length = d) :
    ∀ (idxs : List ℕ) (ps : List Particle) (r : Rng), n = ps.length →
    (∀ p ∈ ps, GoodP pt0 d n lo hi p) →
    ∃ ps1 r1, updateVelocityLoop pt lo hi d cw sw iw idxs ps r = .ok (ps1, r1) ∧
      ps1.length = ps.length ∧ ∀ p ∈ ps1, GoodP pt0 d n lo hi p := by
  intro idxs
  induction idxs with
  | nil =>
    intro ps r hn hG
    exact ⟨ps, r, rfl, rfl, hG⟩
  | cons i is ih =>
    intro ps r hn hG
    cases hget : ps.get? i with
    | none =>
      have hstep : updateVelocityStep pt lo hi d cw sw iw ps i r = .ok (ps, r) := by
        unfold updateVelocityStep
        simp only [hget]
      obtain ⟨ps1, r1, hloop, hlen, hG1⟩ := ih ps r hn hG
      refine ⟨ps1, r1, ?_, hlen, hG1⟩
      unfold updateVelocityLoop
      simp only [hstep, bindE_ok]
      exact hloop
    | some p =>
      obtain ⟨hppt, hpx, hpv, hpb, hpq, hpne, hplt⟩ := hG p (List.get?_mem hget)
      obtain ⟨v3, r2, hv3l, hstep⟩ := updateVelocityStep_ok pt lo hi d cw sw iw
        hlol hhil ps i r p hget (hpx.imp fun x hx => ⟨hx.1, hx.2.1⟩) hpv hpb hpne
        (fun j hj => hn ▸ hplt j hj)
        (fun w hw => ((hG w hw).2.2.2.1))
      have hG2 : ∀ w ∈ ps.set i { p with velocity := some v3 },
          GoodP pt0 d n lo hi w := by
        intro w hw
        rcases List.mem_or_eq_of_mem_set hw with hmem | rfl
        · exact hG w hmem
        · exact ⟨hppt, hpx, ⟨v3, rfl, hv3l⟩, hpb, hpq, hpne, hplt⟩
      have hn2 : n = (ps.set i { p with velocity := some v3 }).length := by
        rw [List.length_set]
        exact hn
      obtain ⟨ps1, r1, hloop, hlen, hG1⟩ := ih (ps.set i { p with velocity := some v3 }) r2 hn2 hG2
      refine ⟨ps1, r1, ?_, ?_, hG1⟩
      · unfold updateVelocityLoop
        simp only [hstep, bindE_ok]
        exact hloop
      · rw [hlen, List.length_set]

/-- `UpdateVelocity.process` on a healthy swarm: succeeds and leaves a
same-length particle list of healthy particles. -/
theorem updateVelocity_ok (s : Swarm) (r : Rng) (pt0 : String) (d : ℕ)
    (lo hi : Vec) (cw sw iw : ℚ)
    (hlo : s.lower_bounds = some lo) (hhi : s.upper_bounds = some hi)
    (hd : s.dimensions = some d) (hcw : s.cognitive_weight = some cw)
    (hsw : s.social_weight = some sw) (hiw : s.inertia_weight = some iw)
    (hlol : lo.length = d) (hhil : hi.length = d)
    (hG : ∀ p ∈ s.particles, GoodP pt0 d s.particles.length lo hi p) :
    ∃ ps1 r1, updateVelocity s r = .ok ({ s with particles := ps1 }, r1) ∧
      ps1.length = s.particles.length ∧
      ∀ p ∈ ps1, GoodP pt0 d s.particles.length lo hi p := by
  obtain ⟨ps1, r1, hloop, hlen, hG1⟩ := updVelLoop_ok pt0 s.problem_type lo hi d
    s.particles.length cw sw iw hlol hhil (List.range s.particles.length)
    s.particles r rfl hG
  refine ⟨ps1, r1, ?_, hlen, hG1⟩
  unfold updateVelocity
  simp only [hlo, hhi, hd, hcw, hsw, hiw, hloop, bindE_ok]

/-- The `UpdatePosition` body succeeds on a positioned, length-consistent
particle, clipping the moved position into the bounds. -/
theorem updatePositionStep_ok (lo hi : Vec) (d : ℕ) (hlol : lo.length = d)
    (hhil : hi.length = d) (hle : leB lo hi = true) (p : Particle)
    (hpos : ∃ x, p.position = some x ∧ x.length = d)
    (hvel : ∃ v, p.velocity = some v ∧ v.length = d) :
    ∃ w, updatePositionStep lo hi p = .ok { p with position := some w } ∧
      w.length = d ∧ withinB lo hi w = true := by
  obtain ⟨x, hx, hxl⟩ := hpos
  obtain ⟨v, hv, hvl⟩ := hvel
  unfold updatePositionStep
  simp only [hx, hv, optToExcept_some, bindE_ok]
  cases ha : vAdd x v with
  | error e =>
    exfalso
    unfold vAdd at ha
    rw [if_pos (by rw [hxl, hvl])] at ha
    exact absurd ha (by simp)
  | ok pos1 =>
    have hp1 : pos1.length = d := by
      obtain ⟨hlen, rfl⟩ := vAdd_ok_iff.mp ha
      rw [List.length_zipWith, hxl, hvl]
      omega
    simp only [ha, bindE_ok]
    cases hc : npClip pos1 lo hi with
    | error e =>
      exfalso
      unfold npClip at hc
      rw [if_pos ⟨by rw [hp1, hlol], by rw [hp1, hhil]⟩] at hc
      exact absurd hc (by simp)
    | ok pos2 =>
      obtain ⟨hl1, hl2, hz⟩ := npClip_ok_iff.mp hc
      simp only [hc, bindE_ok]
      refine ⟨pos2, rfl, ?_, ?_⟩
      · rw [hz, zip3With_length _ _ _ _ hl1 hl2, hp1]
      · rw [hz]
        exact withinB_clip pos1 lo hi hle hl1 hl2

/-- `UpdatePosition.process` on a healthy swarm: succeeds, every particle
ends with an in-bounds position and keeps all other fields. -/
theorem updatePosition_ok (s : Swarm) (lo hi : Vec) (d : ℕ)
    (hlo : s.lower_bounds = some lo) (hhi : s.upper_bounds = some hi)
    (hlol : lo.length = d) (hhil : hi.length = d) (hle : leB lo hi = true)
    (hps : ∀ p ∈ s.particles, (∃ x, p.position = some x ∧ x.length = d) ∧
      (∃ v, p.velocity = some v ∧ v.length = d)) :
    ∃ ps1, updatePosition s = .ok { s with particles := ps1 } ∧
      List.Forall₂ (fun p p1 =>
        p1.problem_type = p.problem_type ∧ p1.velocity = p.velocity ∧
        p1.best_position = p.best_position ∧ p1.best_score = p.best_score ∧
        p1.score = p.score ∧ p1.neighbours = p.neighbours ∧
        (∃ w, p1.position = some w ∧ w.length = d ∧ withinB lo hi w = true))
        s.particles ps1 := by
  obtain ⟨ps1, hmap, hF⟩ := mapM_ok_of_forall (updatePositionStep lo hi)
    (fun p p1 =>
      p1.problem_type = p.problem_type ∧ p1.velocity = p.velocity ∧
      p1.best_position = p.best_position ∧ p1.best_score = p.best_score ∧
      p1.score = p.score ∧ p1.neighbours = p.neighbours ∧
      (∃ w, p1.position = some w ∧ w.length = d ∧ withinB lo hi w = true))
    s.particles
    (fun p hp => by
      obtain ⟨w, hstep, hwl, hww⟩ := updatePositionStep_ok lo hi d hlol hhil hle p
        (hps p hp).1 (hps p hp).2
      exact ⟨_, hstep, rfl, rfl, rfl, rfl, rfl, rfl, ⟨w, rfl, hwl, hww⟩⟩)
  refine ⟨ps1, ?_, hF⟩
  unfold updatePosition
  simp only [hlo, hhi, hmap, bindE_ok]

/-- `map` on a successful `Except` computation. -/
theorem mapE_ok {α β : Type} (a : α) (f : α → β) :
    (Except.ok a : Except Err α).map f = .ok (f a) := rfl

/-- `runStage` dispatch, one equation per stage. -/
theorem runStage_initPosition (s : Swarm) (r : Rng) :
    runStage .initPosition (s, r) = initialisePosition s r := rfl

/-- `runStage` on the velocity-initialisation stage. -/
theorem runStage_initVelocity (s : Swarm) (r : Rng) :
    runStage .initVelocity (s, r) = initialiseVelocity s r := rfl

/-- `runStage` on the topology-initialisation stage. -/
theorem runStage_initTopology (k : TopologyKind) (s : Swarm) (r : Rng) :
    runStage (.initTopology k) (s, r) = .ok (initialiseTopology k s, r) := rfl

/-- `runStage` on the particle-evaluation stage. -/
theorem runStage_particleEval (s : Swarm) (r : Rng) :
    runStage .particleEval (s, r) = (Swarm.evaluate s).map (fun s1 => (s1, r)) := rfl

/-- `runStage` on the swarm-evaluation stage. -/
theorem runStage_swarmEval (s : Swarm) (r : Rng) :
    runStage .swarmEval (s, r) = (swarmEvaluatorProcess s).map (fun s1 => (s1, r)) := rfl

/-- `runStage` on the velocity-update stage. -/
theorem runStage_updateVel (s : Swarm) (r : Rng) :
    runStage .updateVel (s, r) = updateVelocity s r := rfl

/-- `runStage` on the position-update stage. -/
theorem runStage_updatePos (s : Swarm) (r : Rng) :
    runStage .updatePos (s, r) = (updatePosition s).map (fun s1 => (s1, r)) := rfl

/-- One pipeline pass from a freshly built, well-seeded swarm establishes
the running invariant without touching the iteration counters. -/
theorem pipeline_first_pass (k : TopologyKind) (pt : String) (d : ℕ) (lo hi : Vec)
    (f : ObjFn) (s : Swarm) (r : Rng)
    (hpt : pt = "min" ∨ pt = "max") (hle : leB lo hi = true)
    (hlol : lo.length = d) (hhil : hi.length = d)
    (hft : ∀ v : Vec, v.length = d → ∃ q, f.fn v = .ok q)
    (hfn : f.name ∈ optimalNames)
    (hplen : (optimalPositionFor f.name d).length = d ∨
      (optimalPositionFor f.name d).length = 1 ∨ d = 1)
    (hr : r.inUnit) (hB : BuiltReady pt d lo hi f s) :
    ∃ s1 r1, pipelineRun (standardStages k) (s, r) = .ok (s1, r1) ∧
      SInv pt d lo hi f s1 ∧ s1.current_iteration = s.current_iteration ∧
      s1.max_iterations = s.max_iterations := by
  obtain ⟨hptS, hlo, hhi, hd, ⟨cw, hcw⟩, ⟨sw, hsw⟩, ⟨iw, hiw⟩, hf, hfl1, hfl2, hfl3,
    hn2, hseed, hgbs, hci0⟩ := hB
  obtain ⟨psA, rA, hstA, hrA, hFA⟩ :=
    initialisePosition_ok s r lo hi d hfl1 hlo hhi hd hlol hhil hle hr
  set sA : Swarm := { s with particles := psA, position_initialised := true } with hsA
  have hlenA : psA.length = s.particles.length := (List.Forall₂.length_eq hFA).symm
  have hAf : ∀ p1 ∈ psA,
      (∃ x, p1.position = some x ∧ x.length = d ∧ withinB lo hi x = true) ∧
      p1.problem_type = some pt ∧ p1.best_score = seedFor pt := by
    intro p1 hp1
    obtain ⟨p, hp, hx, hpt1, hv1, hb1, hbs1, hnb1⟩ := forall2_mem_exists hFA p1 hp1
    obtain ⟨hppt, hpbs⟩ := hseed p hp
    exact ⟨hx, hpt1.trans hppt, hbs1.trans hpbs⟩
  obtain ⟨psB, rB, hstB, hFB⟩ := initialiseVelocity_ok sA rA d hfl2 hd
  set sB : Swarm := { sA with particles := psB, velocity_initialised := true } with hsB
  have hlenB : psB.length = psA.length := (List.Forall₂.length_eq hFB).symm
  have hBf : ∀ p1 ∈ psB,
      (∃ x, p1.position = some x ∧ x.length = d ∧ withinB lo hi x = true) ∧
      (∃ v, p1.velocity = some v ∧ v.length = d) ∧
      p1.problem_type = some pt ∧ p1.best_score = seedFor pt := by
    intro p1 hp1
    obtain ⟨p, hp, hv, hpt1, hpos1, hb1, hbs1, hnb1⟩ := forall2_mem_exists hFB p1 hp1
    obtain ⟨⟨x, hxe, hxl, hxw⟩, hppt, hpbs⟩ := hAf p hp
    exact ⟨⟨x, hpos1.trans hxe, hxl, hxw⟩, hv, hpt1.trans hppt, hbs1.trans hpbs⟩
  obtain ⟨psC, hstC, hFC⟩ := initialiseTopology_ok k sB hfl3
    (by show 2 ≤ psB.length; rw [hlenB, hlenA]; exact hn2)
  set sC : Swarm := { sB with particles := psC, topology_initialised := true } with hsC
  have hlenC : psC.length = psB.length := (List.Forall₂.length_eq hFC).symm
  have hCf : ∀ p1 ∈ psC,
      (∃ x, p1.position = some x ∧ x.length = d ∧ withinB lo hi x = true) ∧
      (∃ v, p1.velocity = some v ∧ v.length = d) ∧
      p1.problem_type = some pt ∧ p1.best_score = seedFor pt ∧
      p1.neighbours ≠ [] ∧ ∀ j ∈ p1.neighbours, j < psB.length := by
    intro p1 hp1
    obtain ⟨p, hp, hpt1, hpos1, hv1, hb1, hbs1, hsc1, hnbne, hnblt⟩ :=
      forall2_mem_exists hFC p1 hp1
    obtain ⟨⟨x, hxe, hxl, hxw⟩, ⟨v, hve, hvl⟩, hppt, hpbs⟩ := hBf p hp
    exact ⟨⟨x, hpos1.trans hxe, hxl, hxw⟩, ⟨v, hv1.trans hve, hvl⟩,
      hpt1.trans hppt, hbs1.trans hpbs, hnbne, hnblt⟩
  obtain ⟨psD, hstD, hFD⟩ := swarmEvaluate_ok sC f hf d hft
    (by
      intro p hp
      obtain ⟨⟨x, hxe, hxl, hxw⟩, -, -, -, -, -⟩ := hCf p hp
      exact ⟨x, hxe, hxl⟩)
  set sD : Swarm := { sC with particles := psD } with hsD
  have hlenD : psD.length = psC.length := (List.Forall₂.length_eq hFD).symm
  have hDf : ∀ p1 ∈ psD, GoodP pt d psD.length lo hi p1 := by
    intro p1 hp1
    obtain ⟨p, hp, hpt1, hpos1, hv1, hnb1, hsc1, hbor, himp⟩ :=
      forall2_mem_exists hFD p1 hp1
    obtain ⟨⟨x, hxe, hxl, hxw⟩, ⟨v, hve, hvl⟩, hppt, hpbs, hnbne, hnblt⟩ := hCf p hp
    have hbp : p1.best_position = p.position := by
      apply himp
      rcases hpt with rfl | rfl
      · exact Or.inl ⟨hppt, hpbs⟩
      · exact Or.inr ⟨hppt, hpbs⟩
    refine ⟨hpt1.trans hppt, ⟨x, hpos1.trans hxe, hxl, hxw⟩, ⟨v, hv1.trans hve, hvl⟩,
      ⟨x, hbp.trans hxe, hxl⟩, hsc1, ?_, ?_⟩
    · rw [hnb1]
      exact hnbne
    · intro j hj
      rw [hnb1] at hj
      have hjb := hnblt j hj
      omega
  obtain ⟨q1, g1, spE, ppE, hstE, hg1l, hg1w⟩ := swarmEvaluatorProcess_ok sD pt d lo hi f
    hpt hptS hf hd hfn hplen
    (by
      intro hnil
      have hnil2 : psD = [] := hnil
      have h0 : psD.length = 0 := by rw [hnil2]; rfl
      omega)
    (by
      intro p hp
      obtain ⟨h1, hpx, hpv, hpb, hpq, hpne, hplt⟩ := hDf p hp
      exact ⟨hpq, hpx⟩)
    (Or.inl hgbs)
  set sE : Swarm := { sD with global_best_score := some (FVal.fin q1), global_best_position := some g1, score_precision := spE, position_precision := ppE } with hsE
  obtain ⟨psF, rF, hstF, hlenF, hGF⟩ := updateVelocity_ok sE rB pt d lo hi cw sw iw
    hlo hhi hd hcw hsw hiw hlol hhil hDf
  set sF : Swarm := { sE with particles := psF } with hsF
  obtain ⟨psG, hstG, hFG⟩ := updatePosition_ok sF lo hi d hlo hhi hlol hhil hle
    (by
      intro p hp
      obtain ⟨h1, hpx, hpv, h4, h5, h6, h7⟩ := hGF p hp
      exact ⟨hpx.imp (fun x h => ⟨h.1, h.2.1⟩), hpv⟩)
  have hlenG : psG.length = psF.length := (List.Forall₂.length_eq hFG).symm
  have hE : sE.particles.length = psD.length := rfl
  have hGf : ∀ p1 ∈ psG, GoodP pt d psG.length lo hi p1 := by
    intro p1 hp1
    obtain ⟨p, hp, hpt1, hv1, hb1, hbs1, hsc1, hnb1, hw⟩ := forall2_mem_exists hFG p1 hp1
    obtain ⟨h1, hpx, hpv, h4, h5, h6, h7⟩ := hGF p hp
    obtain ⟨v, hve, hvl⟩ := hpv
    obtain ⟨b, hbe, hbl⟩ := h4
    obtain ⟨qs, hqe⟩ := h5
    refine ⟨hpt1.trans h1, hw, ⟨v, hv1.trans hve, hvl⟩, ⟨b, hb1.trans hbe, hbl⟩,
      ⟨qs, hsc1.trans hqe⟩, ?_, ?_⟩
    · rw [hnb1]
      exact h6
    · intro j hj
      rw [hnb1] at hj
      have hjb := h7 j hj
      omega
  refine ⟨{ sF with particles := psG }, rF, ?_, ?_, rfl, rfl⟩
  · show pipelineRun (standardStages k) (s, r) = .ok ({ sF with particles := psG }, rF)
    simp only [pipelineRun, standardStages, List.foldlM_cons, List.foldlM_nil]
    rw [runStage_initPosition, hstA]
    simp only [bindE_ok]
    rw [runStage_initVelocity, hstB]
    simp only [bindE_ok]
    rw [runStage_initTopology k, hstC]
    simp only [bindE_ok]
    rw [runStage_particleEval, hstD]
    simp only [mapE_ok, bindE_ok]
    rw [runStage_swarmEval, hstE]
    simp only [mapE_ok, bindE_ok]
    rw [runStage_updateVel, hstF]
    simp only [bindE_ok]
    rw [runStage_updatePos, hstG]
    simp only [mapE_ok, bindE_ok]
    rfl
  · refine ⟨hptS, hlo, hhi, hd, ⟨cw, hcw⟩, ⟨sw, hsw⟩, ⟨iw, hiw⟩, hf, rfl, rfl, rfl,
      ?_, ?_, ⟨q1, rfl⟩, ⟨g1, rfl, hg1l, hg1w⟩⟩
    · show psG ≠ []
      intro hnil
      have h0 : psG.length = 0 := by rw [hnil]; rfl
      omega
    · show ∀ p ∈ psG, GoodP pt d psG.length lo hi p
      exact hGf

/-- One pipeline pass preserves the running invariant and never touches the
iteration counters. -/
theorem pipeline_steady_pass (k : TopologyKind) (pt : String) (d : ℕ) (lo hi : Vec)
    (f : ObjFn) (s : Swarm) (r : Rng)
    (hpt : pt = "min" ∨ pt = "max") (hle : leB lo hi = true)
    (hlol : lo.length = d) (hhil : hi.length = d)
    (hft : ∀ v : Vec, v.length = d → ∃ q, f.fn v = .ok q)
    (hfn : f.name ∈ optimalNames)
    (hplen : (optimalPositionFor f.name d).length = d ∨
      (optimalPositionFor f.name d).length = 1 ∨ d = 1)
    (hInv : SInv pt d lo hi f s) :
    ∃ s1 r1, pipelineRun (standardStages k) (s, r) = .ok (s1, r1) ∧
      SInv pt d lo hi f s1 ∧ s1.current_iteration = s.current_iteration ∧
      s1.max_iterations = s.max_iterations := by
  obtain ⟨hptS, hlo, hhi, hd, ⟨cw, hcw⟩, ⟨sw, hsw⟩, ⟨iw, hiw⟩, hf, hfl1, hfl2, hfl3,
    hne, hG, ⟨qg, hqg⟩, ⟨g0, hg0, hg0l, hg0w⟩⟩ := hInv
  have hpos0 : 0 < s.particles.length := List.length_pos.mpr hne
  have hst1 : initialisePosition s r = .ok (s, r) := by
    unfold initialisePosition
    rw [hfl1]
    rfl
  have hst2 : initialiseVelocity s r = .ok (s, r) := by
    unfold initialiseVelocity
    rw [hfl2]
    rfl
  have hst3 : initialiseTopology k s = s := by
    unfold initialiseTopology
    rw [hfl3]
    rfl
  obtain ⟨psD, hstD, hFD⟩ := swarmEvaluate_ok s f hf d hft
    (by
      intro p hp
      obtain ⟨h1, ⟨x, hxe, hxl, hxw⟩, h3, h4, h5, h6, h7⟩ := hG p hp
      exact ⟨x, hxe, hxl⟩)
  set sD : Swarm := { s with particles := psD } with hsD
  have hlenD : psD.length = s.particles.length := (List.Forall₂.length_eq hFD).symm
  have hDf : ∀ p1 ∈ psD, GoodP pt d psD.length lo hi p1 := by
    intro p1 hp1
    obtain ⟨p, hp, hpt1, hpos1, hv1, hnb1, hsc1, hbor, himp⟩ :=
      forall2_mem_exists hFD p1 hp1
    obtain ⟨h1, ⟨x, hxe, hxl, hxw⟩, ⟨v, hve, hvl⟩, ⟨b, hbe, hbl⟩, h5, h6, h7⟩ := hG p hp
    have hbp : ∃ b1, p1.best_position = some b1 ∧ b1.length = d := by
      rcases hbor with hkeep | hnew
      · exact ⟨b, hkeep.trans hbe, hbl⟩
      · exact ⟨x, hnew.trans hxe, hxl⟩
    refine ⟨hpt1.trans h1, ⟨x, hpos1.trans hxe, hxl, hxw⟩, ⟨v, hv1.trans hve, hvl⟩,
      hbp, hsc1, ?_, ?_⟩
    · rw [hnb1]
      exact h6
    · intro j hj
      rw [hnb1] at hj
      have hjb := h7 j hj
      omega
  obtain ⟨q1, g1, spE, ppE, hstE, hg1l, hg1w⟩ := swarmEvaluatorProcess_ok sD pt d lo hi f
    hpt hptS hf hd hfn hplen
    (by
      intro hnil
      have hnil2 : psD = [] := hnil
      have h0 : psD.length = 0 := by rw [hnil2]; rfl
      omega)
    (by
      intro p hp
      obtain ⟨h1, hpx, hpv, hpb, hpq, hpne, hplt⟩ := hDf p hp
      exact ⟨hpq, hpx⟩)
    (Or.inr ⟨⟨qg, hqg⟩, ⟨g0, hg0, hg0l, hg0w⟩⟩)
  set sE : Swarm := { sD with global_best_score := some (FVal.fin q1), global_best_position := some g1, score_precision := spE, position_precision := ppE } with hsE
  obtain ⟨psF, rF, hstF, hlenF, hGF⟩ := updateVelocity_ok sE r pt d lo hi cw sw iw
    hlo hhi hd hcw hsw hiw hlol hhil hDf
  set sF : Swarm := { sE with particles := psF } with hsF
  obtain ⟨psG, hstG, hFG⟩ := updatePosition_ok sF lo hi d hlo hhi hlol hhil hle
    (by
      intro p hp
      obtain ⟨h1, hpx, hpv, h4, h5, h6, h7⟩ := hGF p hp
      exact ⟨hpx.imp (fun x h => ⟨h.1, h.2.1⟩), hpv⟩)
  have hlenG : psG.length = psF.length := (List.Forall₂.length_eq hFG).symm
  have hEp : sE.particles.length = psD.length := rfl
  have hGf : ∀ p1 ∈ psG, GoodP pt d psG.length lo hi p1 := by
    intro p1 hp1
    obtain ⟨p, hp, hpt1, hv1, hb1, hbs1, hsc1, hnb1, hw⟩ := forall2_mem_exists hFG p1 hp1
    obtain ⟨h1, hpx, hpv, h4, h5, h6, h7⟩ := hGF p hp
    obtain ⟨v, hve, hvl⟩ := hpv
    obtain ⟨b, hbe, hbl⟩ := h4
    obtain ⟨qs, hqe⟩ := h5
    refine ⟨hpt1.trans h1, hw, ⟨v, hv1.trans hve, hvl⟩, ⟨b, hb1.trans hbe, hbl⟩,
      ⟨qs, hsc1.trans hqe⟩, ?_, ?_⟩
    · rw [hnb1]
      exact h6
    · intro j hj
      rw [hnb1] at hj
      have hjb := h7 j hj
      omega
  refine ⟨{ sF with particles := psG }, rF, ?_, ?_, rfl, rfl⟩
  · show pipelineRun (standardStages k) (s, r) = .ok ({ sF with particles := psG }, rF)
    simp only [pipelineRun, standardStages, List.foldlM_cons, List.foldlM_nil]
    rw [runStage_initPosition, hst1]
    simp only [bindE_ok]
    rw [runStage_initVelocity, hst2]
    simp only [bindE_ok]
    rw [runStage_initTopology k, hst3]
    simp only [bindE_ok]
    rw [runStage_particleEval, hstD]
    simp only [mapE_ok, bindE_ok]
    rw [runStage_swarmEval, hstE]
    simp only [mapE_ok, bindE_ok]
    rw [runStage_updateVel, hstF]
    simp only [bindE_ok]
    rw [runStage_updatePos, hstG]
    simp only [mapE_ok, bindE_ok]
    rfl
  · refine ⟨hptS, hlo, hhi, hd, ⟨cw, hcw⟩, ⟨sw, hsw⟩, ⟨iw, hiw⟩, hf, hfl1, hfl2, hfl3,
      ?_, ?_, ⟨q1, rfl⟩, ⟨g1, rfl, hg1l, hg1w⟩⟩
    · show psG ≠ []
      intro hnil
      have h0 : psG.length = 0 := by rw [hnil]; rfl
      omega
    · show ∀ p ∈ psG, GoodP pt d psG.length lo hi p
      exact hGf

/-- The runner's iteration loop preserves the invariant, adding one to
`current_iteration` per pass. -/
theorem runnerLoop_inv (k : TopologyKind) (pt : String) (d : ℕ) (lo hi : Vec)
    (f : ObjFn)
    (hpt : pt = "min" ∨ pt = "max") (hle : leB lo hi = true)
    (hlol : lo.length = d) (hhil : hi.length = d)
    (hft : ∀ v : Vec, v.length = d → ∃ q, f.fn v = .ok q)
    (hfn : f.name ∈ optimalNames)
    (hplen : (optimalPositionFor f.name d).length = d ∨
      (optimalPositionFor f.name d).length = 1 ∨ d = 1) :
    ∀ (n : ℕ) (s : Swarm) (r : Rng), SInv pt d lo hi f s →
    ∃ s1 r1, runnerLoop (standardStages k) n (s, r) = .ok (s1, r1) ∧
      SInv pt d lo hi f s1 ∧
      s1.current_iteration = s.current_iteration + n := by
  intro n
  induction n with
  | zero =>
    intro s r hInv
    exact ⟨s, r, rfl, hInv, rfl⟩
  | succ m ih =>
    intro s r hInv
    obtain ⟨sP, rP, hpass, hInvP, hciP, hmiP⟩ :=
      pipeline_steady_pass k pt d lo hi f s r hpt hle hlol hhil hft hfn hplen hInv
    obtain ⟨s1, r1, hloop, hInv1, hci1⟩ :=
      ih { sP with current_iteration := sP.current_iteration + 1 } rP hInvP
    refine ⟨s1, r1, ?_, hInv1, ?_⟩
    · show runnerLoop (standardStages k) (m + 1) (s, r) = .ok (s1, r1)
      unfold runnerLoop
      rw [hpass]
      simp only [bindE_ok]
      exact hloop
    · have hq : ({ sP with current_iteration := sP.current_iteration + 1 } : Swarm).current_iteration = sP.current_iteration + 1 := rfl
      omega

/-- C7 counterexample.  `build_from_dict` returns a swarm for a perfectly
valid mapping whose `num_particles` entry precedes its `problem_type`
entry, yet `PSORunner.run` on that built swarm raises a TypeError: the
mis-seeded particles' first evaluation never defines `best_position`, which
`UpdateVelocity` then dereferences.  This refutes "for every built swarm
... terminates with current_iteration == max_iterations". -/
theorem bad_order_built_swarm_run_errors :
    SwarmBuilder.build_from_dict rtermZero badOrderFields = .ok badOrderSwarm ∧
    runnerRun (standardStages .globalT) badOrderSwarm rngHalf =
      .error .typeError := by
  constructor
  · rfl
  · rfl

/-- C7 (status: corrected).  The runner behaves as the claim says only on
WELL-SEEDED builds — the state a successful build produces when the
`problem_type` entry was applied before `num_particles`, so particles carry
the problem type with `best_score` seeded at the matching infinity and the
global best is seeded (`BuiltReady`): for every such swarm, an objective
registered in the convergence table and total at the swarm's
dimensionality, and a unit-interval random stream, `PSORunner.run` with the
standard pipeline (Export stubbed out) performs all `max_iterations`
passes, increments `current_iteration` by one after each, and terminates
with `current_iteration = max_iterations`, a finite `global_best_score`,
and a `global_best_position` of dimension length inside the bounds. -/
theorem runner_completes_on_wellseeded_builds
    (k : TopologyKind) (pt : String) (d m : ℕ) (lo hi : Vec) (f : ObjFn)
    (s : Swarm) (r : Rng)
    (hpt : pt = "min" ∨ pt = "max") (hle : leB lo hi = true)
    (hlol : lo.length = d) (hhil : hi.length = d)
    (hft : ∀ v : Vec, v.length = d → ∃ q, f.fn v = .ok q)
    (hfn : f.name ∈ optimalNames)
    (hplen : (optimalPositionFor f.name d).length = d ∨
      (optimalPositionFor f.name d).length = 1 ∨ d = 1)
    (hr : r.inUnit) (hB : BuiltReady pt d lo hi f s)
    (hm : s.max_iterations = some m) (hm1 : 1 ≤ m) :
    ∃ s1 r1, runnerRun (standardStages k) s r = .ok (s1, r1) ∧
      s1.current_iteration = m ∧
      (∃ q, s1.global_best_score = some (.fin q)) ∧
      (∃ g, s1.global_best_position = some g ∧ g.length = d ∧
        withinB lo hi g = true) := by
  obtain ⟨m', rfl⟩ : ∃ m', m = m' + 1 := ⟨m - 1, by omega⟩
  have hci0 : s.current_iteration = 0 := by
    obtain ⟨-, -, -, -, -, -, -, -, -, -, -, -, -, -, h⟩ := hB
    exact h
  obtain ⟨sP, rP, hpass, hInvP, hciP, hmiP⟩ :=
    pipeline_first_pass k pt d lo hi f s r hpt hle hlol hhil hft hfn hplen hr hB
  obtain ⟨s1, r1, hloop, hInv1, hci1⟩ :=
    runnerLoop_inv k pt d lo hi f hpt hle hlol hhil hft hfn hplen m'
      { sP with current_iteration := sP.current_iteration + 1 } rP hInvP
  obtain ⟨-, -, -, -, -, -, -, -, -, -, -, -, -, hgbf, hgbp⟩ := hInv1
  refine ⟨s1, r1, ?_, ?_, hgbf, hgbp⟩
  · unfold runnerRun
    rw [hm]
    show runnerLoop (standardStages k) (m' + 1) (s, r) = .ok (s1, r1)
    unfold runnerLoop
    rw [hpass]
    simp only [bindE_ok]
    exact hloop
  · have hq : ({ sP with current_iteration := sP.current_iteration + 1 } : Swarm).current_iteration = sP.current_iteration + 1 := rfl
    omega

/-- C7 witness: the well-ordered demo configuration (min / sphere, one
dimension, bounds [(0, 2)], one iteration) runs to completion with the
stated final state. -/
theorem runner_completes_witness :
    ∃ s1 r1, runnerRun (standardStages .globalT) demoSwarm rngHalf = .ok (s1, r1) ∧
      s1.current_iteration = 1 ∧
      (∃ q, s1.global_best_score = some (.fin q)) ∧
      (∃ g, s1.global_best_position = some g ∧ g.length = 1 ∧
        withinB [0] [2] g = true) :=
  runner_completes_on_wellseeded_builds .globalT "min" 1 1 [0] [2]
    ⟨"sphere", sphere⟩ demoSwarm rngHalf (Or.inl rfl) (by decide) rfl rfl
    (fun v _ => ⟨v.foldr (fun x acc => x ^ 2 + acc) 0, rfl⟩) (by decide)
    (Or.inl (by decide))
    (fun n => ⟨by show (0 : ℚ) ≤ 1/2; norm_num, by show (1 : ℚ)/2 ≤ 1; norm_num⟩)
    ⟨rfl, rfl, rfl, rfl, ⟨1/2, rfl⟩, ⟨1/2, rfl⟩, ⟨1/2, rfl⟩, rfl, rfl, rfl, rfl,
      by decide, by decide, rfl, rfl⟩
    rfl (by decide)

end PSO

